import Mathlib

/-!
# Verification of the autonomous research agent's acquisition and analysis core

This file gives a shallow embedding, in Lean 4, of the deduplication/merge
logic of `data_acquisition/acquisition_manager.py`, the comparative-analysis
aggregation functions of `analysis/comparative_analysis.py`, and the
changelog-based query recovery of `pipeline/research_pipeline.py`, together
with theorems settling the specification claims about them.

Modelling conventions:
* Python `Optional[str]` / `Optional[int]` become `Option String` / `Option Int`;
  Python truthiness (`if not x`) is modelled explicitly (`none`, `""` and `0`
  are falsy).
* Python `list(set(xs))` is modelled as order-preserving first-occurrence
  deduplication (`py_list_set`); Python's actual `set` iteration order is
  unspecified, so list-level equalities through it are stated only where the
  claim forces them.
* Rational numbers stand in for Python floats.  So that concrete instances can
  be checked by `decide` (kernel evaluation), quotients are built with `mkRat`
  and sums with `q_add`; the lemmas `q_div_nat_eq` and `q_add_eq` prove these
  equal to ordinary `/` and `+` on `ℚ`.
* Stateful Python methods become explicit state passing; API clients are
  external I/O and enter as parameters (`Except Unit (List Paper)` for a
  source call that can fail, a `Paper → Paper` function for enrichment).
-/

namespace ARA

/-- Python truthiness of an `Optional[str]` value: `None` and `""` are falsy. -/
def truthy_str : Option String → Bool
  | none => false
  | some s => s != ""

/-- Python truthiness of an `Optional[int]` value: `None` and `0` are falsy. -/
def truthy_int : Option Int → Bool
  | none => false
  | some n => n != 0

/-- First-occurrence deduplication with an accumulator of elements already
emitted (structural recursion, so it evaluates in the kernel). -/
def py_set_aux {α : Type} [DecidableEq α] (seen : List α) : List α → List α
  | [] => []
  | a :: l => if a ∈ seen then py_set_aux seen l else a :: py_set_aux (a :: seen) l

/-- Model of Python `list(set(l))`: remove duplicates keeping the first
occurrence of each element.  (CPython's `set` iteration order is unspecified;
this deterministic choice preserves exactly the set of elements.) -/
def py_list_set {α : Type} [DecidableEq α] (l : List α) : List α :=
  py_set_aux [] l

theorem mem_py_set_aux {α : Type} [DecidableEq α] (a : α) :
    ∀ (seen l : List α), a ∈ py_set_aux seen l ↔ a ∈ l ∧ a ∉ seen := by
  intro seen l
  induction l generalizing seen with
  | nil => simp [py_set_aux]
  | cons b l ih =>
    by_cases hb : b ∈ seen
    · simp only [py_set_aux, if_pos hb, ih, List.mem_cons]
      constructor
      · rintro ⟨hm, hs⟩; exact ⟨Or.inr hm, hs⟩
      · rintro ⟨hm | hm, hs⟩
        · exact absurd (hm ▸ hb) hs
        · exact ⟨hm, hs⟩
    · simp only [py_set_aux, if_neg hb, List.mem_cons, ih]
      by_cases hab : a = b
      · subst hab; simp [hb]
      · simp [hab, List.mem_cons]

theorem mem_py_list_set {α : Type} [DecidableEq α] (a : α) (l : List α) :
    a ∈ py_list_set l ↔ a ∈ l := by
  simp [py_list_set, mem_py_set_aux]

theorem py_list_set_toFinset {α : Type} [DecidableEq α] (l : List α) :
    (py_list_set l).toFinset = l.toFinset := by
  ext a
  simp [List.mem_toFinset, mem_py_list_set]

theorem py_set_aux_eq_nil {α : Type} [DecidableEq α] :
    ∀ {seen l : List α}, (∀ a ∈ l, a ∈ seen) → py_set_aux seen l = []
  | _, [], _ => rfl
  | seen, a :: l, h => by
    have ha : a ∈ seen := h a (List.mem_cons_self a l)
    rw [py_set_aux, if_pos ha]
    exact py_set_aux_eq_nil (fun b hb => h b (List.mem_cons_of_mem a hb))

/-- The accumulator state of `py_set_aux` after scanning `l` starting from `seen`. -/
def seen_after {α : Type} [DecidableEq α] (seen l : List α) : List α :=
  l.foldl (fun s a => if a ∈ s then s else a :: s) seen

theorem mem_seen_after {α : Type} [DecidableEq α] (a : α) :
    ∀ (l seen : List α), a ∈ seen_after seen l ↔ a ∈ seen ∨ a ∈ l := by
  intro l
  induction l with
  | nil => simp [seen_after]
  | cons b l ih =>
    intro seen
    show a ∈ seen_after (if b ∈ seen then seen else b :: seen) l ↔ _
    rw [ih]
    by_cases hb : b ∈ seen
    · rw [if_pos hb]
      constructor
      · rintro (h | h)
        · exact Or.inl h
        · exact Or.inr (List.mem_cons_of_mem b h)
      · rintro (h | h)
        · exact Or.inl h
        · rcases List.mem_cons.mp h with hab | h
          · exact Or.inl (hab ▸ hb)
          · exact Or.inr h
    · rw [if_neg hb]
      simp only [List.mem_cons]
      tauto

theorem py_set_aux_append {α : Type} [DecidableEq α] :
    ∀ (l₁ l₂ seen : List α),
      py_set_aux seen (l₁ ++ l₂) = py_set_aux seen l₁ ++ py_set_aux (seen_after seen l₁) l₂ := by
  intro l₁
  induction l₁ with
  | nil => intro l₂ seen; rfl
  | cons a l₁ ih =>
    intro l₂ seen
    by_cases ha : a ∈ seen
    · simp only [List.cons_append, py_set_aux, seen_after, List.foldl_cons, if_pos ha]
      exact ih l₂ seen
    · simp only [List.cons_append, py_set_aux, seen_after, List.foldl_cons, if_neg ha]
      exact congrArg (a :: ·) (ih l₂ (a :: seen))

theorem py_set_aux_of_disjoint {α : Type} [DecidableEq α] :
    ∀ (l seen : List α), l.Nodup → (∀ a ∈ l, a ∉ seen) → py_set_aux seen l = l := by
  intro l
  induction l with
  | nil => intro seen _ _; rfl
  | cons a l ih =>
    intro seen hnd hdisj
    have has : a ∉ seen := hdisj a (List.mem_cons_self a l)
    have hal : a ∉ l := (List.nodup_cons.mp hnd).1
    have hl : l.Nodup := (List.nodup_cons.mp hnd).2
    have hdisj' : ∀ b ∈ l, b ∉ a :: seen := by
      intro b hb hmem
      rcases List.mem_cons.mp hmem with hba | hbs
      · exact hal (hba ▸ hb)
      · exact hdisj b (List.mem_cons_of_mem a hb) hbs
    rw [py_set_aux, if_neg has, ih (a :: seen) hl hdisj']

theorem py_list_set_append_self {α : Type} [DecidableEq α] {l : List α} (h : l.Nodup) :
    py_list_set (l ++ l) = l := by
  rw [py_list_set, py_set_aux_append,
    py_set_aux_of_disjoint l [] h (fun a _ => List.not_mem_nil a),
    py_set_aux_eq_nil (fun a ha => (mem_seen_after a l []).mpr (Or.inr ha)),
    List.append_nil]

/-- Unified representation of a research paper from any source
(`acquisition_manager.Paper`).  Authors are kept as name strings (the
dict-valued author records carry no logic in the verified code). -/
structure Paper where
  id : String
  title : String
  abstract : Option String := none
  authors : List String := []
  year : Option Int := none
  venue : Option String := none
  doi : Option String := none
  url : Option String := none
  pdf_url : Option String := none
  full_text : Option String := none
  source : String := ""
  source_id : Option String := none
  keywords : List String := []
  categories : List String := []
  references : List String := []
  citations : List String := []
  citation_count : Nat := 0
  full_text_fetched : Bool := false
  processed : Bool := false
  deriving DecidableEq, Repr

/-- `AcquisitionManager._merge_paper_info`: merge `source` into `target`.
Scalar fields are filled only when the target's value is Python-falsy and the
source's is truthy; `keywords`/`categories` become `list(set(target + source))`;
`citation_count` is raised to the source's when strictly larger. -/
def merge_paper_info (target source : Paper) : Paper :=
  { target with
    abstract := if !truthy_str target.abstract && truthy_str source.abstract then
        source.abstract else target.abstract
    year := if !truthy_int target.year && truthy_int source.year then
        source.year else target.year
    venue := if !truthy_str target.venue && truthy_str source.venue then
        source.venue else target.venue
    doi := if !truthy_str target.doi && truthy_str source.doi then
        source.doi else target.doi
    url := if !truthy_str target.url && truthy_str source.url then
        source.url else target.url
    pdf_url := if !truthy_str target.pdf_url && truthy_str source.pdf_url then
        source.pdf_url else target.pdf_url
    keywords := py_list_set (target.keywords ++ source.keywords)
    categories := py_list_set (target.categories ++ source.categories)
    citation_count := if target.citation_count < source.citation_count then
        source.citation_count else target.citation_count }

/-- A concrete paper whose keyword list contains a duplicate. -/
def dupKeywordPaper : Paper :=
  { id := "arxiv:1", title := "T", keywords := ["deep learning", "deep learning"] }

/-- C8 counterexample: merging a paper with a duplicated keyword into itself
collapses the duplicate (`list(set(...))`), so the paper is *not* left
unchanged in every field. -/
theorem merge_self_not_id :
    merge_paper_info dupKeywordPaper dupKeywordPaper ≠ dupKeywordPaper := by
  decide

/-- C8 (amended): merging a Paper into itself is the identity provided its
keyword and category lists are duplicate-free (with `list(set(...))` modelled
as order-preserving deduplication). -/
theorem merge_self_id (P : Paper) (hk : P.keywords.Nodup) (hc : P.categories.Nodup) :
    merge_paper_info P P = P := by
  have habs : (if !truthy_str P.abstract && truthy_str P.abstract then P.abstract
      else P.abstract) = P.abstract := by cases truthy_str P.abstract <;> simp
  have hyear : (if !truthy_int P.year && truthy_int P.year then P.year
      else P.year) = P.year := by cases truthy_int P.year <;> simp
  have hvenue : (if !truthy_str P.venue && truthy_str P.venue then P.venue
      else P.venue) = P.venue := by cases truthy_str P.venue <;> simp
  have hdoi : (if !truthy_str P.doi && truthy_str P.doi then P.doi
      else P.doi) = P.doi := by cases truthy_str P.doi <;> simp
  have hurl : (if !truthy_str P.url && truthy_str P.url then P.url
      else P.url) = P.url := by cases truthy_str P.url <;> simp
  have hpdf : (if !truthy_str P.pdf_url && truthy_str P.pdf_url then P.pdf_url
      else P.pdf_url) = P.pdf_url := by cases truthy_str P.pdf_url <;> simp
  simp [merge_paper_info, habs, hyear, hvenue, hdoi, hurl, hpdf,
    py_list_set_append_self hk, py_list_set_append_self hc]

/-- A concrete paper with duplicate-free keyword and category lists. -/
def nodupPaper : Paper :=
  { id := "arxiv:2", title := "U", keywords := ["nlp"], categories := ["cs.CL"] }

/-- C8 witness: the amended idempotence theorem applied to a concrete paper
with duplicate-free keyword and category lists. -/
theorem merge_self_id_witness : merge_paper_info nodupPaper nodupPaper = nodupPaper :=
  merge_self_id nodupPaper (by decide) (by decide)

/-! ## Deduplication (`AcquisitionManager._deduplicate_papers`) -/

/-- `AcquisitionManager._normalize_title`: lowercase, keep only alphanumeric
and whitespace characters, collapse whitespace runs (`' '.join(s.split())`). -/
def normalize_title (t : String) : String :=
  let cs := (t.toList.map Char.toLower).filter (fun c => c.isAlphanum || c.isWhitespace)
  String.mk (List.intercalate [' ']
    ((cs.splitOnP Char.isWhitespace).filter (fun w => !w.isEmpty)))

/-- The key a paper contributes to `papers_by_doi`: its DOI when Python-truthy
(`if paper.doi:`), else nothing. -/
def doi_key (p : Paper) : Option String :=
  match p.doi with
  | none => none
  | some s => if s = "" then none else some s

theorem doi_key_of_doi {p : Paper} {d : String} (hp : p.doi = some d) (hd : d ≠ "") :
    doi_key p = some d := by
  simp [doi_key, hp, hd]

theorem doi_ne_of_doi_key {p : Paper} {d : String} (hp : doi_key p ≠ some d) (hd : d ≠ "") :
    p.doi ≠ some d := by
  intro hcon
  exact hp (doi_key_of_doi hcon hd)

/-- Association-list lookup, modelling Python `dict` membership/indexing. -/
def lookup_assoc (m : List (String × Nat)) (k : String) : Option Nat :=
  (m.find? (fun e => e.1 == k)).map (fun e => e.2)

theorem lookup_assoc_eq_none {m : List (String × Nat)} {k : String}
    (h : ∀ e ∈ m, e.1 ≠ k) : lookup_assoc m k = none := by
  rw [lookup_assoc, List.find?_eq_none.mpr, Option.map_none']
  intro e he
  simpa using h e he

theorem lookup_assoc_mem {m : List (String × Nat)} {k : String} {i : Nat}
    (h : lookup_assoc m k = some i) : (k, i) ∈ m := by
  rw [lookup_assoc] at h
  rcases Option.map_eq_some'.mp h with ⟨e, he, hei⟩
  have hk : e.1 = k := by simpa using List.find?_some he
  have hm := List.mem_of_find?_eq_some he
  have : e = (k, i) := by
    cases e
    simp_all
  exact this ▸ hm

theorem lookup_assoc_cons_ne {m : List (String × Nat)} {k k' : String} {n : Nat}
    (h : k' ≠ k) : lookup_assoc ((k', n) :: m) k = lookup_assoc m k := by
  simp [lookup_assoc, List.find?_cons, h]

theorem lookup_assoc_cons_self {m : List (String × Nat)} {k : String} {n : Nat} :
    lookup_assoc ((k, n) :: m) k = some n := by
  simp [lookup_assoc, List.find?_cons]

/-- In-place update of the `i`-th list element (the Python code mutates the
shared `Paper` object; survivors are represented positionally). -/
def list_modify {α : Type} (f : α → α) : Nat → List α → List α
  | _, [] => []
  | 0, a :: l => f a :: l
  | n + 1, a :: l => a :: list_modify f n l

theorem getElem?_list_modify {α : Type} (f : α → α) :
    ∀ (i j : Nat) (l : List α),
      (list_modify f i l)[j]? = if j = i then (l[j]?).map f else l[j]? := by
  intro i j l
  induction l generalizing i j with
  | nil => simp [list_modify]
  | cons a l ih =>
    cases i with
    | zero =>
      cases j with
      | zero => simp [list_modify]
      | succ j => simp [list_modify]
    | succ i =>
      cases j with
      | zero => simp [list_modify]
      | succ j =>
        simp only [list_modify, List.getElem?_cons_succ, ih i j, Nat.succ_inj']

theorem length_list_modify {α : Type} (f : α → α) :
    ∀ (i : Nat) (l : List α), (list_modify f i l).length = l.length := by
  intro i l
  induction l generalizing i with
  | nil => simp [list_modify]
  | cons a l ih =>
    cases i with
    | zero => simp [list_modify]
    | succ i => simp [list_modify, ih i]

/-- The mutable state of `_deduplicate_papers`: the two lookup dictionaries
(storing positions into the survivor list, since Python stores shared
references) and the `unique_papers` list. -/
structure DedupState where
  by_doi : List (String × Nat)
  by_title : List (String × Nat)
  survivors : List Paper

/-- Merge incoming paper `p` into the survivor at position `i`
(`self._merge_paper_info(existing_paper, paper)` followed by `continue`). -/
def dedup_merge_at (st : DedupState) (i : Nat) (p : Paper) : DedupState :=
  { st with survivors := list_modify (fun t => merge_paper_info t p) i st.survivors }

/-- Register `p` as a new unique paper (`papers_by_doi[paper.doi] = paper` when
the DOI is truthy, `papers_by_title[title_key] = paper`, append). -/
def dedup_register (st : DedupState) (p : Paper) : DedupState :=
  { by_doi := match doi_key p with
      | some k => (k, st.survivors.length) :: st.by_doi
      | none => st.by_doi
    by_title := (normalize_title p.title, st.survivors.length) :: st.by_title
    survivors := st.survivors ++ [p] }

/-- The title-similarity fallback of the per-paper loop body. -/
def dedup_title_branch (st : DedupState) (p : Paper) : DedupState :=
  match lookup_assoc st.by_title (normalize_title p.title) with
  | some i => dedup_merge_at st i p
  | none => dedup_register st p

/-- One iteration of the `for paper in papers` loop of `_deduplicate_papers`. -/
def dedup_step (st : DedupState) (p : Paper) : DedupState :=
  match doi_key p with
  | some k =>
    match lookup_assoc st.by_doi k with
    | some i => dedup_merge_at st i p
    | none => dedup_title_branch st p
  | none => dedup_title_branch st p

/-- `AcquisitionManager._deduplicate_papers`. -/
def deduplicate_papers (papers : List Paper) : List Paper :=
  (papers.foldl dedup_step ⟨[], [], []⟩).survivors

/-- A paper without a DOI whose normalized title collides with `ctrB`'s. -/
def ctrC : Paper := { id := "arxiv:c", title := "t" }

/-- A paper carrying DOI `10.1/x`, title-merged into `ctrC`. -/
def ctrB : Paper := { id := "s2:b", title := "t", doi := some "10.1/x" }

/-- A later paper carrying the same DOI `10.1/x` under a fresh title. -/
def ctrD : Paper := { id := "s2:d", title := "u", doi := some "10.1/x" }

/-- C1 counterexample: in the input `[ctrC, ctrB, ctrD]`, papers `ctrB` and
`ctrD` carry the same non-empty DOI (`ctrB` first), yet deduplication returns
*two* survivors with that DOI: `ctrB` is title-merged into the DOI-less `ctrC`
(which acquires the DOI without being registered in `papers_by_doi`), so `ctrD`
is registered as a fresh survivor. -/
theorem dedup_two_survivors_same_doi :
    ((deduplicate_papers [ctrC, ctrB, ctrD]).filter
        (fun p => p.doi == some "10.1/x")).length = 2 := by
  decide

/-- First-populated-wins choice on an optional string field: the survivor keeps
its own value when Python-truthy, else takes the incoming one when truthy. -/
def first_populated_str (a b : Option String) : Option String :=
  if truthy_str a then a else if truthy_str b then b else a

/-- First-populated-wins choice on an optional int field. -/
def first_populated_int (a b : Option Int) : Option Int :=
  if truthy_int a then a else if truthy_int b then b else a

theorem merge_abstract (A B : Paper) :
    (merge_paper_info A B).abstract = first_populated_str A.abstract B.abstract := by
  cases hA : truthy_str A.abstract <;> cases hB : truthy_str B.abstract <;>
    simp [merge_paper_info, first_populated_str, hA, hB]

theorem merge_year (A B : Paper) :
    (merge_paper_info A B).year = first_populated_int A.year B.year := by
  cases hA : truthy_int A.year <;> cases hB : truthy_int B.year <;>
    simp [merge_paper_info, first_populated_int, hA, hB]

theorem merge_venue (A B : Paper) :
    (merge_paper_info A B).venue = first_populated_str A.venue B.venue := by
  cases hA : truthy_str A.venue <;> cases hB : truthy_str B.venue <;>
    simp [merge_paper_info, first_populated_str, hA, hB]

theorem merge_doi (A B : Paper) :
    (merge_paper_info A B).doi = first_populated_str A.doi B.doi := by
  cases hA : truthy_str A.doi <;> cases hB : truthy_str B.doi <;>
    simp [merge_paper_info, first_populated_str, hA, hB]

theorem merge_url (A B : Paper) :
    (merge_paper_info A B).url = first_populated_str A.url B.url := by
  cases hA : truthy_str A.url <;> cases hB : truthy_str B.url <;>
    simp [merge_paper_info, first_populated_str, hA, hB]

theorem merge_pdf_url (A B : Paper) :
    (merge_paper_info A B).pdf_url = first_populated_str A.pdf_url B.pdf_url := by
  cases hA : truthy_str A.pdf_url <;> cases hB : truthy_str B.pdf_url <;>
    simp [merge_paper_info, first_populated_str, hA, hB]

theorem merge_keywords (A B : Paper) :
    (merge_paper_info A B).keywords.toFinset = A.keywords.toFinset ∪ B.keywords.toFinset := by
  simp [merge_paper_info, py_list_set_toFinset]

theorem merge_categories (A B : Paper) :
    (merge_paper_info A B).categories.toFinset =
      A.categories.toFinset ∪ B.categories.toFinset := by
  simp [merge_paper_info, py_list_set_toFinset]

theorem merge_citation_count (A B : Paper) :
    (merge_paper_info A B).citation_count = max A.citation_count B.citation_count := by
  simp only [merge_paper_info]
  split <;> omega

theorem merge_doi_stable {A : Paper} (B : Paper) {d : String} (hA : A.doi = some d)
    (hd : d ≠ "") : (merge_paper_info A B).doi = some d := by
  have ht : truthy_str A.doi = true := by simp [truthy_str, hA, hd]
  have hcond : (!truthy_str A.doi && truthy_str B.doi) = false := by simp [ht]
  simp only [merge_paper_info, hcond, Bool.false_eq_true, if_false]
  exact hA

theorem merge_doi_not_d {t p : Paper} {d : String} (ht : t.doi ≠ some d)
    (hp : doi_key p ≠ some d) (hd : d ≠ "") :
    (merge_paper_info t p).doi ≠ some d := by
  have hpd : p.doi ≠ some d := doi_ne_of_doi_key hp hd
  simp only [merge_paper_info]
  by_cases h : (!truthy_str t.doi && truthy_str p.doi) = true
  · simp only [h, if_pos]
    exact hpd
  · simp only [Bool.not_eq_true] at h
    simp only [h, Bool.false_eq_true, if_false]
    exact ht

/-- A paper that neither carries DOI `d` nor has normalized title `nA`, so it
can interact with neither lookup entry guarding the tracked survivor. -/
def clean_for (d nA : String) (p : Paper) : Prop :=
  doi_key p ≠ some d ∧ normalize_title p.title ≠ nA

theorem getElem?_append_singleton {α : Type} {l : List α} {a : α} {j : Nat} :
    (l ++ [a])[j]? = if j < l.length then l[j]?
      else if j = l.length then some a else none := by
  by_cases hlt : j < l.length
  · rw [if_pos hlt, List.getElem?_append_left hlt]
  · rw [if_neg hlt]
    have hle : l.length ≤ j := Nat.le_of_not_lt hlt
    rw [List.getElem?_append_right hle]
    by_cases heq : j = l.length
    · subst heq
      simp
    · rw [if_neg heq]
      have : 1 ≤ j - l.length := by omega
      match hj : j - l.length, this with
      | k + 1, _ => simp

theorem lt_length_of_getElem?_eq_some {α : Type} {l : List α} {j : Nat} {a : α}
    (h : l[j]? = some a) : j < l.length := by
  by_contra hge
  rw [List.getElem?_eq_none (Nat.le_of_not_lt hge)] at h
  exact Option.noConfusion h

/-- State invariant before the tracked paper `A` (DOI `d`, normalized title
`nA`) has been processed: neither lookup map can capture `A`, and no survivor
carries DOI `d`. -/
structure Inv1 (d nA : String) (st : DedupState) : Prop where
  doi_keys : ∀ e ∈ st.by_doi, e.1 ≠ d
  title_keys : ∀ e ∈ st.by_title, e.1 ≠ nA
  surv_doi : ∀ (j : Nat) (p : Paper), st.survivors[j]? = some p → p.doi ≠ some d
  doi_bound : ∀ e ∈ st.by_doi, e.2 < st.survivors.length
  title_bound : ∀ e ∈ st.by_title, e.2 < st.survivors.length

theorem inv1_empty (d nA : String) : Inv1 d nA ⟨[], [], []⟩ := by
  constructor <;> intros <;> simp_all

theorem inv1_merge_at {d nA : String} {st : DedupState} {p : Paper} {i : Nat}
    (hd : d ≠ "") (hinv : Inv1 d nA st) (hp : clean_for d nA p) :
    Inv1 d nA (dedup_merge_at st i p) := by
  refine ⟨hinv.doi_keys, hinv.title_keys, ?_, ?_, ?_⟩
  · intro j q hq
    rw [show (dedup_merge_at st i p).survivors
        = list_modify (fun t => merge_paper_info t p) i st.survivors from rfl,
      getElem?_list_modify] at hq
    by_cases hji : j = i
    · rw [if_pos hji] at hq
      rcases Option.map_eq_some'.mp hq with ⟨t, ht, rfl⟩
      exact merge_doi_not_d (hinv.surv_doi j t ht) hp.1 hd
    · rw [if_neg hji] at hq
      exact hinv.surv_doi j q hq
  · intro e he
    rw [show (dedup_merge_at st i p).survivors
        = list_modify (fun t => merge_paper_info t p) i st.survivors from rfl,
      length_list_modify]
    exact hinv.doi_bound e he
  · intro e he
    rw [show (dedup_merge_at st i p).survivors
        = list_modify (fun t => merge_paper_info t p) i st.survivors from rfl,
      length_list_modify]
    exact hinv.title_bound e he

theorem inv1_register {d nA : String} {st : DedupState} {p : Paper}
    (hd : d ≠ "") (hinv : Inv1 d nA st) (hp : clean_for d nA p) :
    Inv1 d nA (dedup_register st p) := by
  have hsurv : ∀ (j : Nat) (q : Paper), (st.survivors ++ [p])[j]? = some q → q.doi ≠ some d := by
    intro j q hq
    rw [getElem?_append_singleton] at hq
    by_cases hlt : j < st.survivors.length
    · rw [if_pos hlt] at hq
      exact hinv.surv_doi j q hq
    · rw [if_neg hlt] at hq
      by_cases heq : j = st.survivors.length
      · rw [if_pos heq] at hq
        cases hq
        exact doi_ne_of_doi_key hp.1 hd
      · rw [if_neg heq] at hq
        exact Option.noConfusion hq
  have hlen : (st.survivors ++ [p]).length = st.survivors.length + 1 := by
    simp
  constructor
  · show ∀ e ∈ (match doi_key p with
        | some k => (k, st.survivors.length) :: st.by_doi
        | none => st.by_doi), e.1 ≠ d
    cases hk : doi_key p with
    | none => exact hinv.doi_keys
    | some k =>
      intro e he
      rcases List.mem_cons.mp he with rfl | he
      · intro hkd
        exact hp.1 (by rw [hk]; exact congrArg some hkd)
      · exact hinv.doi_keys e he
  · intro e he
    rcases List.mem_cons.mp he with rfl | he
    · exact hp.2
    · exact hinv.title_keys e he
  · exact hsurv
  · show ∀ e ∈ (match doi_key p with
        | some k => (k, st.survivors.length) :: st.by_doi
        | none => st.by_doi), e.2 < (st.survivors ++ [p]).length
    rw [hlen]
    cases hk : doi_key p with
    | none => exact fun e he => Nat.lt_succ_of_lt (hinv.doi_bound e he)
    | some k =>
      intro e he
      rcases List.mem_cons.mp he with rfl | he
      · exact Nat.lt_succ_self _
      · exact Nat.lt_succ_of_lt (hinv.doi_bound e he)
  · show ∀ e ∈ (normalize_title p.title, st.survivors.length) :: st.by_title,
        e.2 < (st.survivors ++ [p]).length
    rw [hlen]
    intro e he
    rcases List.mem_cons.mp he with rfl | he
    · exact Nat.lt_succ_self _
    · exact Nat.lt_succ_of_lt (hinv.title_bound e he)

theorem inv1_step {d nA : String} {st : DedupState} {p : Paper}
    (hd : d ≠ "") (hinv : Inv1 d nA st) (hp : clean_for d nA p) :
    Inv1 d nA (dedup_step st p) := by
  have htitle : Inv1 d nA (dedup_title_branch st p) := by
    rcases hl : lookup_assoc st.by_title (normalize_title p.title) with _ | i
    · simp only [dedup_title_branch, hl]
      exact inv1_register hd hinv hp
    · simp only [dedup_title_branch, hl]
      exact inv1_merge_at hd hinv hp
  rcases hk : doi_key p with _ | k
  · simpa only [dedup_step, hk] using htitle
  · rcases hb : lookup_assoc st.by_doi k with _ | i
    · simpa only [dedup_step, hk, hb] using htitle
    · simp only [dedup_step, hk, hb]
      exact inv1_merge_at hd hinv hp

/-- State invariant once the tracked paper (DOI `d`, normalized title `nA`)
survives at position `i` with current merged value `v`: the DOI map sends `d`
to `i`, only the keys `d` / `nA` can reach position `i`, and no other survivor
carries DOI `d`. -/
structure Inv2 (d nA : String) (i : Nat) (v : Paper) (st : DedupState) : Prop where
  doi_lookup : lookup_assoc st.by_doi d = some i
  doi_maps : ∀ e ∈ st.by_doi, e.2 = i → e.1 = d
  title_maps : ∀ e ∈ st.by_title, e.2 = i → e.1 = nA
  surv_at : st.survivors[i]? = some v
  surv_other : ∀ (j : Nat) (p : Paper), j ≠ i → st.survivors[j]? = some p → p.doi ≠ some d
  doi_bound : ∀ e ∈ st.by_doi, e.2 < st.survivors.length
  title_bound : ∀ e ∈ st.by_title, e.2 < st.survivors.length

theorem inv2_of_register {d : String} {st : DedupState} {A : Paper}
    (_hd : d ≠ "") (hinv : Inv1 d (normalize_title A.title) st)
    (hA : doi_key A = some d) :
    Inv2 d (normalize_title A.title) st.survivors.length A (dedup_step st A) := by
  have hdoi_none : lookup_assoc st.by_doi d = none :=
    lookup_assoc_eq_none hinv.doi_keys
  have htitle_none : lookup_assoc st.by_title (normalize_title A.title) = none :=
    lookup_assoc_eq_none hinv.title_keys
  have hstep : dedup_step st A = dedup_register st A := by
    simp only [dedup_step, hA, hdoi_none, dedup_title_branch, htitle_none]
  rw [hstep]
  have hby_doi : (dedup_register st A).by_doi = (d, st.survivors.length) :: st.by_doi := by
    simp only [dedup_register, hA]
  have hby_title : (dedup_register st A).by_title
      = (normalize_title A.title, st.survivors.length) :: st.by_title := rfl
  have hsurv : (dedup_register st A).survivors = st.survivors ++ [A] := rfl
  constructor
  · rw [hby_doi]
    exact lookup_assoc_cons_self
  · rw [hby_doi]
    intro e he h2
    rcases List.mem_cons.mp he with rfl | he
    · rfl
    · exact absurd h2 (Nat.ne_of_lt (hinv.doi_bound e he))
  · rw [hby_title]
    intro e he h2
    rcases List.mem_cons.mp he with rfl | he
    · rfl
    · exact absurd h2 (Nat.ne_of_lt (hinv.title_bound e he))
  · rw [hsurv, getElem?_append_singleton, if_neg (Nat.lt_irrefl _), if_pos rfl]
  · intro j p hj hp
    rw [hsurv, getElem?_append_singleton] at hp
    by_cases hlt : j < st.survivors.length
    · rw [if_pos hlt] at hp
      exact hinv.surv_doi j p hp
    · rw [if_neg hlt, if_neg hj] at hp
      exact Option.noConfusion hp
  · rw [hby_doi, hsurv]
    intro e he
    rcases List.mem_cons.mp he with rfl | he
    · simp
    · simp only [List.length_append, List.length_cons, List.length_nil]
      exact Nat.lt_succ_of_lt (hinv.doi_bound e he)
  · rw [hby_title, hsurv]
    intro e he
    rcases List.mem_cons.mp he with rfl | he
    · simp
    · simp only [List.length_append, List.length_cons, List.length_nil]
      exact Nat.lt_succ_of_lt (hinv.title_bound e he)

theorem inv2_merge_at {d nA : String} {i j : Nat} {v : Paper} {st : DedupState} {p : Paper}
    (hd : d ≠ "") (hinv : Inv2 d nA i v st) (hp : clean_for d nA p) (hji : j ≠ i) :
    Inv2 d nA i v (dedup_merge_at st j p) := by
  have hsurv : (dedup_merge_at st j p).survivors
      = list_modify (fun t => merge_paper_info t p) j st.survivors := rfl
  constructor
  · exact hinv.doi_lookup
  · exact hinv.doi_maps
  · exact hinv.title_maps
  · rw [hsurv, getElem?_list_modify, if_neg (Ne.symm hji)]
    exact hinv.surv_at
  · intro j' q hj' hq
    rw [hsurv, getElem?_list_modify] at hq
    by_cases hjj : j' = j
    · rw [if_pos hjj] at hq
      rcases Option.map_eq_some'.mp hq with ⟨t, ht, rfl⟩
      exact merge_doi_not_d (hinv.surv_other j' t hj' (hjj ▸ ht)) hp.1 hd
    · rw [if_neg hjj] at hq
      exact hinv.surv_other j' q hj' hq
  · rw [hsurv, length_list_modify]
    exact hinv.doi_bound
  · rw [hsurv, length_list_modify]
    exact hinv.title_bound

theorem inv2_register {d nA : String} {i : Nat} {v : Paper} {st : DedupState} {p : Paper}
    (hd : d ≠ "") (hinv : Inv2 d nA i v st) (hp : clean_for d nA p) :
    Inv2 d nA i v (dedup_register st p) := by
  have hi_lt : i < st.survivors.length := lt_length_of_getElem?_eq_some hinv.surv_at
  have hsurv : (dedup_register st p).survivors = st.survivors ++ [p] := rfl
  have hlen : (st.survivors ++ [p]).length = st.survivors.length + 1 := by simp
  have hby_title : (dedup_register st p).by_title
      = (normalize_title p.title, st.survivors.length) :: st.by_title := rfl
  have hdoi_cases : (dedup_register st p).by_doi = st.by_doi ∨
      ∃ k, doi_key p = some k ∧ k ≠ d ∧
        (dedup_register st p).by_doi = (k, st.survivors.length) :: st.by_doi := by
    cases hk : doi_key p with
    | none => exact Or.inl (by simp only [dedup_register, hk])
    | some k =>
      refine Or.inr ⟨k, rfl, ?_, by simp only [dedup_register, hk]⟩
      intro hkd
      exact hp.1 (by rw [hk, hkd])
  constructor
  · rcases hdoi_cases with h | ⟨k, _, hkd, h⟩
    · rw [h]; exact hinv.doi_lookup
    · rw [h, lookup_assoc_cons_ne hkd]; exact hinv.doi_lookup
  · rcases hdoi_cases with h | ⟨k, _, hkd, h⟩
    · rw [h]; exact hinv.doi_maps
    · rw [h]
      intro e he h2
      rcases List.mem_cons.mp he with rfl | he
      · exact absurd (show st.survivors.length = i from h2) (by omega)
      · exact hinv.doi_maps e he h2
  · rw [hby_title]
    intro e he h2
    rcases List.mem_cons.mp he with rfl | he
    · exact absurd (show st.survivors.length = i from h2) (by omega)
    · exact hinv.title_maps e he h2
  · rw [hsurv, getElem?_append_singleton, if_pos hi_lt]
    exact hinv.surv_at
  · intro j q hj hq
    rw [hsurv, getElem?_append_singleton] at hq
    by_cases hlt : j < st.survivors.length
    · rw [if_pos hlt] at hq
      exact hinv.surv_other j q hj hq
    · rw [if_neg hlt] at hq
      by_cases heq : j = st.survivors.length
      · rw [if_pos heq] at hq
        cases hq
        exact doi_ne_of_doi_key hp.1 hd
      · rw [if_neg heq] at hq
        exact Option.noConfusion hq
  · rcases hdoi_cases with h | ⟨k, _, _, h⟩ <;> rw [h, hsurv, hlen]
    · exact fun e he => Nat.lt_succ_of_lt (hinv.doi_bound e he)
    · intro e he
      rcases List.mem_cons.mp he with rfl | he
      · exact Nat.lt_succ_self _
      · exact Nat.lt_succ_of_lt (hinv.doi_bound e he)
  · rw [hby_title, hsurv, hlen]
    intro e he
    rcases List.mem_cons.mp he with rfl | he
    · exact Nat.lt_succ_self _
    · exact Nat.lt_succ_of_lt (hinv.title_bound e he)

theorem inv2_step {d nA : String} {i : Nat} {v : Paper} {st : DedupState} {p : Paper}
    (hd : d ≠ "") (hinv : Inv2 d nA i v st) (hp : clean_for d nA p) :
    Inv2 d nA i v (dedup_step st p) := by
  have htitle : Inv2 d nA i v (dedup_title_branch st p) := by
    rcases hl : lookup_assoc st.by_title (normalize_title p.title) with _ | j
    · simp only [dedup_title_branch, hl]
      exact inv2_register hd hinv hp
    · simp only [dedup_title_branch, hl]
      have hji : j ≠ i := by
        intro hji
        exact hp.2 (hinv.title_maps _ (lookup_assoc_mem hl) hji)
      exact inv2_merge_at hd hinv hp hji
  rcases hk : doi_key p with _ | k
  · simpa only [dedup_step, hk] using htitle
  · rcases hb : lookup_assoc st.by_doi k with _ | j
    · simpa only [dedup_step, hk, hb] using htitle
    · simp only [dedup_step, hk, hb]
      have hji : j ≠ i := by
        intro hji
        apply hp.1
        rw [hk]
        exact congrArg some (hinv.doi_maps _ (lookup_assoc_mem hb) hji)
      exact inv2_merge_at hd hinv hp hji

theorem inv2_absorb {d nA : String} {i : Nat} {v : Paper} {st : DedupState} {B : Paper}
    (hinv : Inv2 d nA i v st) (hB : doi_key B = some d) :
    Inv2 d nA i (merge_paper_info v B) (dedup_step st B) := by
  have hstep : dedup_step st B = dedup_merge_at st i B := by
    simp only [dedup_step, hB, hinv.doi_lookup]
  rw [hstep]
  have hsurv : (dedup_merge_at st i B).survivors
      = list_modify (fun t => merge_paper_info t B) i st.survivors := rfl
  constructor
  · exact hinv.doi_lookup
  · exact hinv.doi_maps
  · exact hinv.title_maps
  · rw [hsurv, getElem?_list_modify, if_pos rfl, hinv.surv_at, Option.map_some']
  · intro j q hj hq
    rw [hsurv, getElem?_list_modify, if_neg hj] at hq
    exact hinv.surv_other j q hj hq
  · rw [hsurv, length_list_modify]
    exact hinv.doi_bound
  · rw [hsurv, length_list_modify]
    exact hinv.title_bound

theorem inv2_fold {d nA : String} {i : Nat} {v : Paper} :
    ∀ (l : List Paper) (st : DedupState), d ≠ "" → Inv2 d nA i v st →
      (∀ p ∈ l, clean_for d nA p) → Inv2 d nA i v (l.foldl dedup_step st) := by
  intro l
  induction l with
  | nil => intro st _ hinv _; exact hinv
  | cons p l ih =>
    intro st hd hinv hclean
    rw [List.foldl_cons]
    exact ih (dedup_step st p) hd
      (inv2_step hd hinv (hclean p (List.mem_cons_self p l)))
      (fun q hq => hclean q (List.mem_cons_of_mem p hq))

theorem inv1_fold {d nA : String} :
    ∀ (l : List Paper) (st : DedupState), d ≠ "" → Inv1 d nA st →
      (∀ p ∈ l, clean_for d nA p) → Inv1 d nA (l.foldl dedup_step st) := by
  intro l
  induction l with
  | nil => intro st _ hinv _; exact hinv
  | cons p l ih =>
    intro st hd hinv hclean
    rw [List.foldl_cons]
    exact ih (dedup_step st p) hd
      (inv1_step hd hinv (hclean p (List.mem_cons_self p l)))
      (fun q hq => hclean q (List.mem_cons_of_mem p hq))

theorem filter_eq_singleton {α : Type} (P : α → Bool) :
    ∀ (l : List α) (i : Nat) (v : α), l[i]? = some v → P v = true →
      (∀ (j : Nat) (q : α), j ≠ i → l[j]? = some q → P q = false) →
      l.filter P = [v] := by
  intro l
  induction l with
  | nil =>
    intro i v hv _ _
    exact absurd hv (by simp)
  | cons a l ih =>
    intro i v hv hPv hother
    cases i with
    | zero =>
      rw [List.getElem?_cons_zero] at hv
      cases hv
      have hnil : l.filter P = [] := by
        rw [List.filter_eq_nil_iff]
        intro q hq
        rcases List.getElem?_of_mem hq with ⟨j, hj⟩
        have hfalse := hother (j + 1) q (Nat.succ_ne_zero j)
          (by rwa [List.getElem?_cons_succ])
        simp [hfalse]
      simp [List.filter_cons, hPv, hnil]
    | succ i =>
      have hPa : P a = false := hother 0 a (Nat.succ_ne_zero i).symm (by simp)
      rw [List.getElem?_cons_succ] at hv
      have hrec := ih i v hv hPv
        (fun j q hj hq => hother (j + 1) q (by omega) (by rwa [List.getElem?_cons_succ]))
      simp [List.filter_cons, hPa, hrec]

/-- C1 (amended): if `A` and `B` carry the same non-empty DOI `d` (`A` first)
and every other input paper neither carries `d` nor shares `A`'s normalized
title, then `_deduplicate_papers` keeps exactly one survivor with DOI `d`,
namely `A` merged with `B`: every scalar field holds the first Python-populated
value among `A` then `B`, keyword/category sets are the unions, and the
citation count is the maximum.  (Without the non-interference condition the
claim fails, see `dedup_two_survivors_same_doi`.) -/
theorem dedup_same_doi_single_survivor
    (pre mid post : List Paper) (A B : Paper) (d : String)
    (hd : d ≠ "") (hA : A.doi = some d) (hB : B.doi = some d)
    (hclean : ∀ p ∈ pre ++ (mid ++ post), clean_for d (normalize_title A.title) p) :
    (deduplicate_papers (pre ++ A :: (mid ++ B :: post))).filter
        (fun p => p.doi == some d) = [merge_paper_info A B]
    ∧ (merge_paper_info A B).abstract = first_populated_str A.abstract B.abstract
    ∧ (merge_paper_info A B).year = first_populated_int A.year B.year
    ∧ (merge_paper_info A B).venue = first_populated_str A.venue B.venue
    ∧ (merge_paper_info A B).doi = some d
    ∧ (merge_paper_info A B).url = first_populated_str A.url B.url
    ∧ (merge_paper_info A B).pdf_url = first_populated_str A.pdf_url B.pdf_url
    ∧ (merge_paper_info A B).keywords.toFinset
        = A.keywords.toFinset ∪ B.keywords.toFinset
    ∧ (merge_paper_info A B).categories.toFinset
        = A.categories.toFinset ∪ B.categories.toFinset
    ∧ (merge_paper_info A B).citation_count = max A.citation_count B.citation_count := by
  have hpre : ∀ p ∈ pre, clean_for d (normalize_title A.title) p :=
    fun p hp => hclean p (List.mem_append_left _ hp)
  have hmid : ∀ p ∈ mid, clean_for d (normalize_title A.title) p :=
    fun p hp => hclean p (List.mem_append_right _ (List.mem_append_left _ hp))
  have hpost : ∀ p ∈ post, clean_for d (normalize_title A.title) p :=
    fun p hp => hclean p (List.mem_append_right _ (List.mem_append_right _ hp))
  have h1 : Inv1 d (normalize_title A.title) (pre.foldl dedup_step ⟨[], [], []⟩) :=
    inv1_fold pre ⟨[], [], []⟩ hd (inv1_empty d _) hpre
  have h2 := inv2_of_register hd h1 (doi_key_of_doi hA hd)
  have h3 := inv2_fold mid _ hd h2 hmid
  have h4 := inv2_absorb h3 (doi_key_of_doi hB hd)
  have h5 := inv2_fold post _ hd h4 hpost
  have hunfold : deduplicate_papers (pre ++ A :: (mid ++ B :: post))
      = (post.foldl dedup_step (dedup_step
          (mid.foldl dedup_step (dedup_step (pre.foldl dedup_step ⟨[], [], []⟩) A))
          B)).survivors := by
    rw [deduplicate_papers, List.foldl_append, List.foldl_cons, List.foldl_append,
      List.foldl_cons]
  refine ⟨?_, merge_abstract A B, merge_year A B, merge_venue A B,
    merge_doi_stable B hA hd, merge_url A B, merge_pdf_url A B,
    merge_keywords A B, merge_categories A B, merge_citation_count A B⟩
  rw [hunfold]
  refine filter_eq_singleton _ _ _ _ h5.surv_at ?_ ?_
  · rw [beq_iff_eq]
    exact merge_doi_stable B hA hd
  · intro j q hj hq
    rw [beq_eq_false_iff_ne]
    exact h5.surv_other j q hj hq

/-- Concrete paper from source A in the spec's end-to-end scenario. -/
def c1A : Paper :=
  { id := "arxiv:10", title := "T", doi := some "10.1/x", citation_count := 5,
    keywords := ["kw1"] }

/-- Concrete paper from source B in the spec's end-to-end scenario. -/
def c1B : Paper :=
  { id := "s2:11", title := "T two", abstract := some "A2", doi := some "10.1/x",
    citation_count := 9, keywords := ["kw2"] }

/-- C1 witness: the amended theorem applied to the two-paper input
`[c1A, c1B]` sharing DOI `10.1/x`. -/
theorem dedup_same_doi_single_survivor_witness :
    (deduplicate_papers ([] ++ c1A :: ([] ++ c1B :: []))).filter
        (fun p => p.doi == some "10.1/x") = [merge_paper_info c1A c1B]
    ∧ (merge_paper_info c1A c1B).abstract = first_populated_str c1A.abstract c1B.abstract
    ∧ (merge_paper_info c1A c1B).year = first_populated_int c1A.year c1B.year
    ∧ (merge_paper_info c1A c1B).venue = first_populated_str c1A.venue c1B.venue
    ∧ (merge_paper_info c1A c1B).doi = some "10.1/x"
    ∧ (merge_paper_info c1A c1B).url = first_populated_str c1A.url c1B.url
    ∧ (merge_paper_info c1A c1B).pdf_url = first_populated_str c1A.pdf_url c1B.pdf_url
    ∧ (merge_paper_info c1A c1B).keywords.toFinset
        = c1A.keywords.toFinset ∪ c1B.keywords.toFinset
    ∧ (merge_paper_info c1A c1B).categories.toFinset
        = c1A.categories.toFinset ∪ c1B.categories.toFinset
    ∧ (merge_paper_info c1A c1B).citation_count
        = max c1A.citation_count c1B.citation_count :=
  dedup_same_doi_single_survivor [] [] [] c1A c1B "10.1/x"
    (by decide) (by decide) (by decide) (by intro p hp; simp at hp)

/-! ## Comparative analysis (`analysis/comparative_analysis.py`) -/

/-- A flattened finding as built in `compare_findings`: origin paper index,
text, confidence and source section. -/
structure Finding where
  paper_idx : Nat
  text : String
  confidence : ℚ := 1
  source : String := "unknown"
  deriving DecidableEq, Repr

/-- A cluster dictionary as built by `_cluster_findings`.  The member findings
are recorded by their indices into the input list (`member_idx`); the code's
`'findings'` entry is `member_idx.map (findings[·])`. -/
structure FindingCluster where
  member_idx : List Nat
  papers : Finset Nat
  representative : String
  size : Nat
  deriving DecidableEq

/-- The list comprehension
`[j for j in range(len(findings)) if similarity_matrix[i, j] > threshold and j not in used_indices]`
with `threshold = 0.7`.  Note there is no `j != i` guard. -/
def similar_indices (sim : Nat → Nat → ℚ) (n i : Nat) (used : Finset Nat) : List Nat :=
  (List.range n).filter (fun j => decide (mkRat 7 10 < sim i j) && decide (j ∉ used))

/-- Paper index of the `j`-th input finding (total lookup; all uses are in
range). -/
def paper_idx_of (findings : List Finding) (j : Nat) : Nat :=
  ((findings[j]?).map Finding.paper_idx).getD 0

/-- Text of the `j`-th input finding. -/
def text_of (findings : List Finding) (j : Nat) : String :=
  ((findings[j]?).map Finding.text).getD ""

/-- The `for i in range(len(findings))` loop of `_cluster_findings`, iterating
over the remaining indices with the `used_indices` set. -/
def cluster_loop (findings : List Finding) (sim : Nat → Nat → ℚ) :
    List Nat → Finset Nat → List FindingCluster
  | [], _ => []
  | i :: rest, used =>
    if i ∈ used then cluster_loop findings sim rest used
    else
      let similar := similar_indices sim findings.length i used
      let members := i :: similar
      { member_idx := members
        papers := (members.map (paper_idx_of findings)).toFinset
        representative := text_of findings i
        size := 1 + similar.length } ::
        cluster_loop findings sim rest (insert i used ∪ similar.toFinset)

/-- Stable insertion keeping larger sizes first; an element is placed after
every already-placed element of greater or equal size. -/
def insert_by_size_desc (c : FindingCluster) : List FindingCluster → List FindingCluster
  | [] => [c]
  | c' :: cs => if c'.size < c.size then c :: c' :: cs
      else c' :: insert_by_size_desc c cs

/-- `sorted(clusters, key=lambda x: x['size'], reverse=True)` (stable,
descending by size). -/
def sort_by_size_desc (cs : List FindingCluster) : List FindingCluster :=
  cs.foldl (fun acc c => insert_by_size_desc c acc) []

/-- `ComparativeAnalysis._cluster_findings`. -/
def cluster_findings (findings : List Finding) (sim : Nat → Nat → ℚ) :
    List FindingCluster :=
  sort_by_size_desc (cluster_loop findings sim (List.range findings.length) ∅)

/-- One concrete finding. -/
def f0 : Finding := { paper_idx := 0, text := "accuracy of 95%" }

/-- C2 failing input evaluated: with a single finding and the (realistic)
similarity matrix `[[1.0]]` — any diagonal above the 0.7 threshold — the seed
index `0` passes its own similarity filter (there is no `j != i` guard), so the
sole cluster lists finding 0 *twice* and reports `size = 2`.  The spec's
partition invariant (each finding index exactly once) is violated on every
input whose self-similarity exceeds the threshold. -/
theorem cluster_seed_duplicated :
    ((cluster_findings [f0] (fun _ _ => 1)).map FindingCluster.member_idx = [[0, 0]])
    ∧ ((cluster_findings [f0] (fun _ _ => 1)).map FindingCluster.size = [2]) := by
  decide

/-- `ComparativeAnalysis._calculate_agreement_contradiction`: the fraction of
clusters spanning more than one paper (`0` for no clusters), and the stubbed
contradiction score `0.0`. -/
def calculate_agreement_contradiction (clusters : List FindingCluster) : ℚ × ℚ :=
  let multi := clusters.filter (fun c => 1 < c.papers.card)
  (if clusters.length = 0 then 0 else mkRat multi.length clusters.length, 0)

/-- C7: the agreement score equals the number of clusters whose paper set has
more than one element divided by the total number of clusters (`0` when there
are none), and the contradiction score is always `0.0` (an explicit stub). -/
theorem agreement_contradiction_spec (clusters : List FindingCluster) :
    calculate_agreement_contradiction clusters
      = (if clusters.length = 0 then 0
          else ((clusters.countP (fun c => 1 < c.papers.card) : ℚ) / clusters.length), 0) := by
  rw [calculate_agreement_contradiction]
  by_cases h : clusters.length = 0
  · simp [h]
  · simp only [h, if_false]
    congr 1
    rw [Rat.mkRat_eq_div, List.countP_eq_length_filter]
    push_cast
    rfl

/-! ## Methodology comparison (`ComparativeAnalysis.compare_methodologies`) -/

/-- `category_counts[category] += 1` with creation on first sight; a Python
dict is an insertion-ordered association list with unique keys. -/
def bump_count (counts : List (String × Nat)) (c : String) : List (String × Nat) :=
  if counts.any (fun e => e.1 == c) then
    counts.map (fun e => if e.1 == c then (e.1, e.2 + 1) else e)
  else counts ++ [(c, 1)]

/-- The inner loop `for category, score in methodology.items(): if score > 0.3: ...`. -/
def process_pairs (counts : List (String × Nat)) (m : List (String × ℚ)) :
    List (String × Nat) :=
  m.foldl (fun cnt p => if mkRat 3 10 < p.2 then bump_count cnt p.1 else cnt) counts

/-- The `category_counts` dict after the outer loop over all methodology maps. -/
def methodology_counts (ms : List (List (String × ℚ))) : List (String × Nat) :=
  ms.foldl process_pairs []

/-- `max(category_counts.items(), key=lambda x: x[1])`: first item with the
maximal count (Python's `max` keeps the earliest maximum). -/
def most_common_entry (counts : List (String × Nat)) : Option (String × Nat) :=
  counts.foldl (fun best e =>
    match best with
    | none => some e
    | some b => if b.2 < e.2 then some e else some b) none

/-- Result record of `compare_methodologies`. -/
structure MethodologyComparison where
  category_counts : List (String × Nat)
  most_common_methodology : Option String
  methodology_diversity : ℚ
  consensus_score : ℚ
  unique_methodologies : Nat
  deriving DecidableEq, Repr

/-- `ComparativeAnalysis.compare_methodologies` (`mkRat a b` is `a / b`, the
float division of the source). -/
def compare_methodologies (ms : List (List (String × ℚ))) : MethodologyComparison :=
  let counts := methodology_counts ms
  let mc : Option String × Nat :=
    match most_common_entry counts with
    | some e => (some e.1, e.2)
    | none => (none, 0)
  { category_counts := counts
    most_common_methodology := mc.1
    methodology_diversity := if ms.length = 0 then 0 else mkRat counts.length ms.length
    consensus_score := if ms.length = 0 then 0 else mkRat mc.2 ms.length
    unique_methodologies := counts.length }

/-- Dict lookup with default `0`: the count stored for category `c`. -/
def count_of : List (String × Nat) → String → Nat
  | [], _ => 0
  | e :: rest, c => if e.1 == c then e.2 else count_of rest c

/-- Dict key membership. -/
def has_key (counts : List (String × Nat)) (c : String) : Bool :=
  counts.any (fun e => e.1 == c)

/-- Category `c` is "present" in methodology map `m`: some entry for `c` has
score strictly above `0.3` (spec-side notion). -/
def present_in (c : String) (m : List (String × ℚ)) : Bool :=
  m.any (fun p => p.1 == c && decide (mkRat 3 10 < p.2))

/-- Number of papers in which category `c` is present (spec-side notion). -/
def present_count (ms : List (List (String × ℚ))) (c : String) : Nat :=
  ms.countP (present_in c)

/-- The set of categories present in at least one paper (spec-side notion). -/
def present_cats (ms : List (List (String × ℚ))) : Finset String :=
  ms.foldr (fun m acc =>
    ((m.filter (fun p => decide (mkRat 3 10 < p.2))).map Prod.fst).toFinset ∪ acc) ∅

theorem mem_present_cats (c : String) :
    ∀ (ms : List (List (String × ℚ))),
      c ∈ present_cats ms ↔ ∃ m ∈ ms, present_in c m = true := by
  intro ms
  induction ms with
  | nil => simp [present_cats]
  | cons m ms ih =>
    simp only [present_cats, List.foldr_cons, Finset.mem_union, List.mem_toFinset,
      List.mem_map, List.mem_filter]
    rw [show (List.foldr (fun m acc =>
        ((m.filter (fun p => decide (mkRat 3 10 < p.2))).map Prod.fst).toFinset ∪ acc)
        ∅ ms) = present_cats ms from rfl, ih]
    constructor
    · rintro (⟨p, ⟨hp, hs⟩, rfl⟩ | ⟨m', hm', hp⟩)
      · refine ⟨m, List.mem_cons_self m ms, ?_⟩
        rw [present_in, List.any_eq_true]
        exact ⟨p, hp, by simp [hs]⟩
      · exact ⟨m', List.mem_cons_of_mem m hm', hp⟩
    · rintro ⟨m', hm', hp⟩
      rcases List.mem_cons.mp hm' with rfl | hm'
      · left
        rw [present_in, List.any_eq_true] at hp
        rcases hp with ⟨p, hp, hps⟩
        rw [Bool.and_eq_true, beq_iff_eq, decide_eq_true_eq] at hps
        exact ⟨p, ⟨hp, by simp [hps.2]⟩, hps.1⟩
      · exact Or.inr ⟨m', hm', hp⟩

theorem count_of_eq_zero {counts : List (String × Nat)} {c : String}
    (h : has_key counts c = false) : count_of counts c = 0 := by
  induction counts with
  | nil => rfl
  | cons e rest ih =>
    simp only [has_key, List.any_cons, Bool.or_eq_false_iff] at h
    rw [count_of, if_neg (by simp [h.1]), ih]
    rw [has_key]
    exact h.2

theorem count_of_map_incr (c' c : String) :
    ∀ (counts : List (String × Nat)),
      count_of (counts.map (fun e => if e.1 == c' then (e.1, e.2 + 1) else e)) c
        = count_of counts c + (if (c == c') && has_key counts c then 1 else 0) := by
  intro counts
  induction counts with
  | nil => simp [count_of, has_key]
  | cons e rest ih =>
    cases hbc : (e.1 == c) with
    | false =>
      have hfst : ((if e.1 == c' then (e.1, e.2 + 1) else e).1 == c) = false := by
        cases h : (e.1 == c') <;> simp [h, hbc]
      simp only [List.map_cons, count_of, hfst, hbc, Bool.false_eq_true, if_false, ih,
        has_key, List.any_cons, Bool.false_or]
    | true =>
      have heq : e.1 = c := beq_iff_eq.mp hbc
      have hk : has_key (e :: rest) c = true := by simp [has_key, hbc]
      cases hbc' : (c == c') with
      | false =>
        have hfste : (e.1 == c') = false := by rw [heq]; exact hbc'
        simp only [List.map_cons, hfste, Bool.false_eq_true, if_false, count_of, hbc,
          if_true, hk, hbc', Bool.false_and, Nat.add_zero]
      | true =>
        have hfste : (e.1 == c') = true := by rw [heq]; exact hbc'
        simp only [List.map_cons, hfste, if_true, count_of]
        rw [show ((e.1, e.2 + 1) : String × Nat).1 = e.1 from rfl]
        simp only [hbc, if_true, hk, hbc', Bool.and_self]

theorem count_of_append_single (c' c : String) (n : Nat) :
    ∀ (counts : List (String × Nat)),
      count_of (counts ++ [(c', n)]) c
        = if has_key counts c then count_of counts c else (if c' = c then n else 0) := by
  intro counts
  induction counts with
  | nil =>
    simp only [List.nil_append, count_of, has_key, List.any_nil, Bool.false_eq_true, if_false]
    by_cases h : c' = c <;> simp [h]
  | cons e rest ih =>
    by_cases hec : e.1 = c
    · simp [count_of, has_key, hec]
    · have hne : (e.1 == c) = false := by simp [hec]
      simp only [List.cons_append, count_of, hne, Bool.false_eq_true, if_false,
        List.append_eq]
      rw [ih, has_key]
      simp only [has_key, List.any_cons, hne, Bool.false_or]

theorem count_of_bump (counts : List (String × Nat)) (c' c : String) :
    count_of (bump_count counts c') c = count_of counts c + (if c = c' then 1 else 0) := by
  rw [bump_count]
  by_cases hk : counts.any (fun e => e.1 == c') = true
  · rw [if_pos hk, count_of_map_incr]
    by_cases hcc : c = c'
    · subst hcc
      have hkk : has_key counts c = true := by simpa [has_key] using hk
      simp [hkk]
    · have hb : (c == c') = false := by simp [hcc]
      simp [hb, hcc]
  · rw [if_neg hk, count_of_append_single]
    by_cases hkc : has_key counts c = true
    · rw [if_pos hkc]
      have hcc : ¬ c = c' := by
        intro h
        apply hk
        rw [← has_key, ← h]
        exact hkc
      rw [if_neg hcc, Nat.add_zero]
    · rw [if_neg hkc, count_of_eq_zero (Bool.eq_false_iff.mpr hkc)]
      by_cases hcc : c = c'
      · simp [hcc]
      · have h2 : ¬ c' = c := fun h => hcc h.symm
        simp [hcc, h2]

theorem has_key_bump (counts : List (String × Nat)) (c' c : String) :
    has_key (bump_count counts c') c = (has_key counts c || c == c') := by
  rw [bump_count]
  by_cases hk : counts.any (fun e => e.1 == c') = true
  · rw [if_pos hk]
    have hmap : ∀ (l : List (String × Nat)),
        has_key (l.map (fun e => if e.1 == c' then (e.1, e.2 + 1) else e)) c
          = has_key l c := by
      intro l
      induction l with
      | nil => rfl
      | cons e rest ih =>
        have hfst : ((if e.1 == c' then (e.1, e.2 + 1) else e).1 == c) = (e.1 == c) := by
          by_cases h : (e.1 == c') = true <;> simp [h]
        simp only [List.map_cons, has_key, List.any_cons] at ih ⊢
        rw [hfst, ih]
    rw [hmap]
    by_cases hcc : c = c'
    · subst hcc
      rw [show has_key counts c = true from hk, Bool.true_or]
    · rw [show (c == c') = false from by simp [hcc], Bool.or_false]
  · rw [if_neg hk]
    have hsplit : has_key (counts ++ [(c', 1)]) c = (has_key counts c || (c' == c)) := by
      rw [has_key, List.any_append]
      simp [has_key]
    rw [hsplit]
    by_cases hcc : c = c'
    · subst hcc; simp
    · have h2 : ¬ c' = c := fun h => hcc h.symm
      rw [show ((c' : String) == c) = false from by simp [h2],
        show ((c : String) == c') = false from by simp [hcc]]


theorem count_of_process_pairs (c : String) :
    ∀ (m : List (String × ℚ)) (counts : List (String × Nat)),
      count_of (process_pairs counts m) c
        = count_of counts c
          + m.countP (fun p => p.1 == c && decide (mkRat 3 10 < p.2)) := by
  intro m
  induction m with
  | nil => intro counts; simp [process_pairs]
  | cons p m ih =>
    intro counts
    have hstep : process_pairs counts (p :: m)
        = process_pairs (if mkRat 3 10 < p.2 then bump_count counts p.1 else counts) m := by
      rw [process_pairs, List.foldl_cons]
      rfl
    rw [hstep, List.countP_cons]
    by_cases hs : mkRat 3 10 < p.2
    · rw [if_pos hs, ih, count_of_bump]
      have hdec : decide (mkRat 3 10 < p.2) = true := decide_eq_true hs
      by_cases hpc : p.1 = c
      · have hb : (p.1 == c && decide (mkRat 3 10 < p.2)) = true := by simp [hpc, hdec]
        rw [hb, if_pos rfl, if_pos hpc.symm]
        omega
      · have hb : (p.1 == c && decide (mkRat 3 10 < p.2)) = false := by simp [hpc]
        have hcp : ¬ c = p.1 := fun h => hpc h.symm
        rw [hb, if_neg hcp]
        simp
    · rw [if_neg hs, ih]
      have hdec : decide (mkRat 3 10 < p.2) = false := decide_eq_false hs
      have hb : (p.1 == c && decide (mkRat 3 10 < p.2)) = false := by simp [hdec]
      rw [hb]
      simp

theorem has_key_process_pairs (c : String) :
    ∀ (m : List (String × ℚ)) (counts : List (String × Nat)),
      has_key (process_pairs counts m) c = (has_key counts c || present_in c m) := by
  intro m
  induction m with
  | nil => intro counts; simp [process_pairs, present_in]
  | cons p m ih =>
    intro counts
    have hstep : process_pairs counts (p :: m)
        = process_pairs (if mkRat 3 10 < p.2 then bump_count counts p.1 else counts) m := by
      rw [process_pairs, List.foldl_cons]
      rfl
    rw [hstep]
    have hpres : present_in c (p :: m)
        = ((p.1 == c && decide (mkRat 3 10 < p.2)) || present_in c m) := by
      rw [present_in, List.any_cons]
      rfl
    by_cases hs : mkRat 3 10 < p.2
    · rw [if_pos hs, ih, has_key_bump, hpres, decide_eq_true hs, Bool.and_true]
      by_cases hpc : p.1 = c
      · subst hpc
        simp
      · have hcp : ¬ c = p.1 := fun h => hpc h.symm
        rw [show ((c : String) == p.1) = false from by simp [hcp],
          show (p.1 == c) = false from by simp [hpc], Bool.or_false, Bool.false_or]
    · rw [if_neg hs, ih, hpres, decide_eq_false hs, Bool.and_false, Bool.false_or]

theorem keys_bump (counts : List (String × Nat)) (c' : String) :
    (bump_count counts c').map Prod.fst = counts.map Prod.fst
    ∨ ((bump_count counts c').map Prod.fst = counts.map Prod.fst ++ [c']
        ∧ c' ∉ counts.map Prod.fst) := by
  rw [bump_count]
  by_cases hk : counts.any (fun e => e.1 == c') = true
  · left
    rw [if_pos hk, List.map_map]
    apply List.map_congr_left
    intro e _
    rw [Function.comp_apply]
    by_cases h : (e.1 == c') = true
    · rw [if_pos h]
    · rw [if_neg h]
  · right
    rw [if_neg hk]
    constructor
    · simp
    · intro hmem
      apply hk
      rcases List.mem_map.mp hmem with ⟨e, he, hfst⟩
      rw [List.any_eq_true]
      exact ⟨e, he, by simp [hfst]⟩

theorem keys_nodup_bump {counts : List (String × Nat)} {c' : String}
    (h : (counts.map Prod.fst).Nodup) : ((bump_count counts c').map Prod.fst).Nodup := by
  rcases keys_bump counts c' with heq | ⟨heq, hnm⟩
  · rwa [heq]
  · rw [heq]
    rw [List.nodup_append]
    have hdisj : List.Disjoint (counts.map Prod.fst) [c'] := by
      intro a ha hb
      rw [List.mem_singleton] at hb
      exact hnm (hb ▸ ha)
    exact ⟨h, List.nodup_singleton c', hdisj⟩

theorem keys_nodup_process_pairs :
    ∀ (m : List (String × ℚ)) {counts : List (String × Nat)},
      (counts.map Prod.fst).Nodup → ((process_pairs counts m).map Prod.fst).Nodup := by
  intro m
  induction m with
  | nil => intro counts h; exact h
  | cons p m ih =>
    intro counts h
    have hstep : process_pairs counts (p :: m)
        = process_pairs (if mkRat 3 10 < p.2 then bump_count counts p.1 else counts) m := by
      rw [process_pairs, List.foldl_cons]
      rfl
    rw [hstep]
    by_cases hs : mkRat 3 10 < p.2
    · rw [if_pos hs]
      exact ih (keys_nodup_bump h)
    · rw [if_neg hs]
      exact ih h

theorem keys_nodup_fold :
    ∀ (ms : List (List (String × ℚ))) {counts : List (String × Nat)},
      (counts.map Prod.fst).Nodup →
      ((ms.foldl process_pairs counts).map Prod.fst).Nodup := by
  intro ms
  induction ms with
  | nil => intro counts h; exact h
  | cons m ms ih =>
    intro counts h
    rw [List.foldl_cons]
    exact ih (keys_nodup_process_pairs m h)

theorem keys_nodup_methodology_counts (ms : List (List (String × ℚ))) :
    ((methodology_counts ms).map Prod.fst).Nodup :=
  keys_nodup_fold ms List.nodup_nil

theorem countP_pairs_of_nodup {c : String} :
    ∀ {m : List (String × ℚ)}, (m.map Prod.fst).Nodup →
      m.countP (fun p => p.1 == c && decide (mkRat 3 10 < p.2))
        = if present_in c m then 1 else 0 := by
  intro m
  induction m with
  | nil => intro _; simp [present_in]
  | cons p m ih =>
    intro hnd
    have hm : (m.map Prod.fst).Nodup := (List.nodup_cons.mp (by simpa using hnd)).2
    have hpm : p.1 ∉ m.map Prod.fst := (List.nodup_cons.mp (by simpa using hnd)).1
    have hpres : present_in c (p :: m)
        = ((p.1 == c && decide (mkRat 3 10 < p.2)) || present_in c m) := by
      rw [present_in, List.any_cons]
      rfl
    rw [List.countP_cons, ih hm, hpres]
    by_cases hp : (p.1 == c && decide (mkRat 3 10 < p.2)) = true
    · have hp2 : (p.1 == c) = true ∧ decide (mkRat 3 10 < p.2) = true := by
        simpa [Bool.and_eq_true] using hp
      have hpc : p.1 = c := beq_iff_eq.mp hp2.1
      have hnone : present_in c m = false := by
        rw [present_in]
        rw [Bool.eq_false_iff]
        intro hany
        rcases List.any_eq_true.mp hany with ⟨q, hq, hqp⟩
        have hq2 : (q.1 == c) = true ∧ decide (mkRat 3 10 < q.2) = true := by
          simpa [Bool.and_eq_true] using hqp
        have hqc : q.1 = c := beq_iff_eq.mp hq2.1
        exact hpm (hpc ▸ hqc ▸ List.mem_map_of_mem Prod.fst hq)
      rw [hnone, hp, Bool.or_false]
      simp
    · rw [Bool.eq_false_iff.mpr hp, Bool.false_or]
      simp

theorem present_count_fold (c : String) :
    ∀ (ms : List (List (String × ℚ))) (counts : List (String × Nat)),
      (∀ m ∈ ms, (m.map Prod.fst).Nodup) →
      count_of (ms.foldl process_pairs counts) c
        = count_of counts c + present_count ms c := by
  intro ms
  induction ms with
  | nil => intro counts _; simp [present_count]
  | cons m ms ih =>
    intro counts hkeys
    rw [List.foldl_cons, ih _ (fun m' hm' => hkeys m' (List.mem_cons_of_mem m hm')),
      count_of_process_pairs,
      countP_pairs_of_nodup (hkeys m (List.mem_cons_self m ms))]
    rw [show present_count (m :: ms) c
        = present_count ms c + (if present_in c m = true then 1 else 0) from by
      rw [present_count, List.countP_cons]
      rfl]
    omega

theorem count_of_methodology_counts (c : String) (ms : List (List (String × ℚ)))
    (hkeys : ∀ m ∈ ms, (m.map Prod.fst).Nodup) :
    count_of (methodology_counts ms) c = present_count ms c := by
  rw [methodology_counts, present_count_fold c ms [] hkeys]
  simp [count_of]

theorem has_key_fold (c : String) :
    ∀ (ms : List (List (String × ℚ))) (counts : List (String × Nat)),
      has_key (ms.foldl process_pairs counts) c
        = (has_key counts c || ms.any (present_in c)) := by
  intro ms
  induction ms with
  | nil => intro counts; simp
  | cons m ms ih =>
    intro counts
    rw [List.foldl_cons, ih, has_key_process_pairs, List.any_cons, Bool.or_assoc]

theorem has_key_methodology_counts (c : String) (ms : List (List (String × ℚ))) :
    has_key (methodology_counts ms) c = ms.any (present_in c) := by
  rw [methodology_counts, has_key_fold]
  rfl

theorem has_key_iff_mem_keys {counts : List (String × Nat)} {c : String} :
    has_key counts c = true ↔ c ∈ counts.map Prod.fst := by
  rw [has_key, List.any_eq_true]
  constructor
  · rintro ⟨e, he, hec⟩
    exact (beq_iff_eq.mp hec) ▸ List.mem_map_of_mem Prod.fst he
  · intro hmem
    rcases List.mem_map.mp hmem with ⟨e, he, rfl⟩
    exact ⟨e, he, by simp⟩

theorem keys_toFinset_eq_present_cats (ms : List (List (String × ℚ))) :
    ((methodology_counts ms).map Prod.fst).toFinset = present_cats ms := by
  ext c
  rw [List.mem_toFinset, ← has_key_iff_mem_keys, has_key_methodology_counts,
    mem_present_cats, List.any_eq_true]

theorem count_of_of_mem {c : String} {k : Nat} :
    ∀ {counts : List (String × Nat)}, (counts.map Prod.fst).Nodup →
      (c, k) ∈ counts → count_of counts c = k := by
  intro counts
  induction counts with
  | nil => intro _ h; exact absurd h (List.not_mem_nil _)
  | cons e rest ih =>
    intro hnd hmem
    have hrest : (rest.map Prod.fst).Nodup := (List.nodup_cons.mp (by simpa using hnd)).2
    have hhead : e.1 ∉ rest.map Prod.fst := (List.nodup_cons.mp (by simpa using hnd)).1
    rcases List.mem_cons.mp hmem with rfl | hmem
    · rw [count_of, if_pos (by simp)]
    · by_cases hec : e.1 = c
      · exfalso
        apply hhead
        have hc : c ∈ rest.map Prod.fst := by
          have hmm := List.mem_map_of_mem Prod.fst hmem
          simpa using hmm
        rwa [hec]
      · rw [count_of, if_neg (by simp [hec])]
        exact ih hrest hmem

theorem entry_of_has_key {c : String} :
    ∀ {counts : List (String × Nat)}, has_key counts c = true →
      (c, count_of counts c) ∈ counts := by
  intro counts
  induction counts with
  | nil => intro h; simp [has_key] at h
  | cons e rest ih =>
    intro hk
    by_cases hec : e.1 = c
    · obtain ⟨e1, e2⟩ := e
      have he1 : e1 = c := hec
      subst he1
      have hco : count_of ((e1, e2) :: rest) e1 = e2 := by
        rw [count_of, if_pos (by simp)]
      rw [hco]
      exact List.mem_cons_self _ _
    · rw [count_of, if_neg (by simp [hec])]
      have hrest : has_key rest c = true := by
        rw [has_key, List.any_cons] at hk
        have hk2 : (e.1 == c) = true ∨ (rest.any fun e => e.1 == c) = true := by
          simpa [Bool.or_eq_true] using hk
        rcases hk2 with h | h
        · exact absurd (beq_iff_eq.mp h) hec
        · exact h
      exact List.mem_cons_of_mem e (ih hrest)

theorem most_common_entry_aux :
    ∀ (rest : List (String × Nat)) (b : String × Nat),
      ∃ e, rest.foldl (fun best e =>
          match best with
          | none => some e
          | some b => if b.2 < e.2 then some e else some b) (some b) = some e
        ∧ (e = b ∨ e ∈ rest) ∧ b.2 ≤ e.2 ∧ ∀ e' ∈ rest, e'.2 ≤ e.2 := by
  intro rest
  induction rest with
  | nil =>
    intro b
    exact ⟨b, rfl, Or.inl rfl, Nat.le_refl _, by intro e' h; exact absurd h (List.not_mem_nil _)⟩
  | cons x rest ih =>
    intro b
    rw [List.foldl_cons]
    by_cases hbx : b.2 < x.2
    · rw [show (match some b with
          | none => some x
          | some b' => if b'.2 < x.2 then some x else some b') = some x from by
        simp [hbx]]
      rcases ih x with ⟨e, heq, hmem, hle, hall⟩
      refine ⟨e, heq, ?_, ?_, ?_⟩
      · rcases hmem with rfl | hmem
        · exact Or.inr (List.mem_cons_self _ _)
        · exact Or.inr (List.mem_cons_of_mem _ hmem)
      · exact Nat.le_trans (Nat.le_of_lt hbx) hle
      · intro e' he'
        rcases List.mem_cons.mp he' with rfl | he'
        · exact hle
        · exact hall e' he'
    · rw [show (match some b with
          | none => some x
          | some b' => if b'.2 < x.2 then some x else some b') = some b from by
        simp [hbx]]
      rcases ih b with ⟨e, heq, hmem, hle, hall⟩
      refine ⟨e, heq, ?_, hle, ?_⟩
      · rcases hmem with rfl | hmem
        · exact Or.inl rfl
        · exact Or.inr (List.mem_cons_of_mem _ hmem)
      · intro e' he'
        rcases List.mem_cons.mp he' with rfl | he'
        · exact Nat.le_trans (Nat.le_of_not_lt hbx) hle
        · exact hall e' he'

theorem most_common_entry_spec {counts : List (String × Nat)} (h : counts ≠ []) :
    ∃ e, most_common_entry counts = some e ∧ e ∈ counts ∧ ∀ e' ∈ counts, e'.2 ≤ e.2 := by
  rcases counts with _ | ⟨e0, rest⟩
  · exact absurd rfl h
  · rw [most_common_entry, List.foldl_cons]
    rcases most_common_entry_aux rest e0 with ⟨e, heq, hmem, hle0, hall⟩
    refine ⟨e, heq, ?_, ?_⟩
    · rcases hmem with rfl | hmem
      · exact List.mem_cons_self _ _
      · exact List.mem_cons_of_mem _ hmem
    · intro e' he'
      rcases List.mem_cons.mp he' with rfl | he'
      · exact hle0
      · exact hall e' he'

/-- The spec's ten-paper scenario: six papers scoring `{experimental: 0.8}`
and four scoring `{qualitative: 0.5}`. -/
def ex10 : List (List (String × ℚ)) :=
  List.replicate 6 [("experimental", mkRat 4 5)]
    ++ List.replicate 4 [("qualitative", mkRat 1 2)]

/-- C6: `compare_methodologies` counts a category as present in a paper exactly
when its score strictly exceeds `0.3`; diversity is the number of distinct
present categories divided by the number of papers; consensus is the count of
the most common present category divided by the number of papers; and on the
spec's ten-paper scenario the most common methodology is `experimental` with
consensus `0.6` and diversity `0.2`. -/
theorem compare_methodologies_spec
    (ms : List (List (String × ℚ)))
    (hne : ms ≠ [])
    (hkeys : ∀ m ∈ ms, (m.map Prod.fst).Nodup)
    (hsome : ms.any (fun m => m.any (fun p => decide (mkRat 3 10 < p.2))) = true) :
    (∀ c, count_of (compare_methodologies ms).category_counts c = present_count ms c)
    ∧ (compare_methodologies ms).methodology_diversity
        = ((present_cats ms).card : ℚ) / (ms.length : ℚ)
    ∧ (∃ cmax, (compare_methodologies ms).most_common_methodology = some cmax
        ∧ (compare_methodologies ms).consensus_score
            = (present_count ms cmax : ℚ) / (ms.length : ℚ)
        ∧ ∀ c, present_count ms c ≤ present_count ms cmax)
    ∧ (compare_methodologies ms).unique_methodologies = (present_cats ms).card
    ∧ (compare_methodologies ex10).most_common_methodology = some "experimental"
    ∧ (compare_methodologies ex10).consensus_score = (0.6 : ℚ)
    ∧ (compare_methodologies ex10).methodology_diversity = (0.2 : ℚ) := by
  have hwf := keys_nodup_methodology_counts ms
  have hlen : ¬ ms.length = 0 := fun h => hne (List.length_eq_zero.mp h)
  have hcard : (methodology_counts ms).length = (present_cats ms).card := by
    rw [← keys_toFinset_eq_present_cats, List.toFinset_card_of_nodup hwf,
      List.length_map]
  have hconc : compare_methodologies ex10
      = { category_counts := [("experimental", 6), ("qualitative", 4)]
          most_common_methodology := some "experimental"
          methodology_diversity := mkRat 2 10
          consensus_score := mkRat 6 10
          unique_methodologies := 2 } := by
    decide
  refine ⟨?_, ?_, ?_, ?_, ?_, ?_, ?_⟩
  · intro c
    exact count_of_methodology_counts c ms hkeys
  · show (if ms.length = 0 then 0 else mkRat (methodology_counts ms).length ms.length) = _
    rw [if_neg hlen, hcard, Rat.mkRat_eq_div]
    push_cast
    ring
  · rcases List.any_eq_true.mp hsome with ⟨m0, hm0, hany0⟩
    rcases List.any_eq_true.mp hany0 with ⟨p0, hp0, hs0⟩
    have hk0 : has_key (methodology_counts ms) p0.1 = true := by
      rw [has_key_methodology_counts, List.any_eq_true]
      refine ⟨m0, hm0, ?_⟩
      rw [present_in, List.any_eq_true]
      exact ⟨p0, hp0, by simp [hs0]⟩
    have hcne : methodology_counts ms ≠ [] := by
      intro h
      rw [h] at hk0
      simp [has_key] at hk0
    obtain ⟨e, heq, hmem, hall⟩ := most_common_entry_spec hcne
    have hmemc : (e.1, e.2) ∈ methodology_counts ms := by
      rw [show ((e.1, e.2) : String × Nat) = e from rfl]
      exact hmem
    have he2 : e.2 = present_count ms e.1 := by
      rw [← count_of_methodology_counts e.1 ms hkeys]
      exact (count_of_of_mem hwf hmemc).symm
    refine ⟨e.1, ?_, ?_, ?_⟩
    · simp only [compare_methodologies, heq]
    · have hfield : (compare_methodologies ms).consensus_score
          = (if ms.length = 0 then 0 else mkRat e.2 ms.length) := by
        simp only [compare_methodologies, heq]
      rw [hfield, if_neg hlen, he2, Rat.mkRat_eq_div]
      push_cast
      ring
    · intro c
      by_cases hkc : has_key (methodology_counts ms) c = true
      · have hbound := hall _ (entry_of_has_key hkc)
        rw [← count_of_methodology_counts c ms hkeys, ← he2]
        exact hbound
      · rw [← count_of_methodology_counts c ms hkeys,
          count_of_eq_zero (Bool.eq_false_iff.mpr hkc)]
        exact Nat.zero_le _
  · exact hcard
  · rw [hconc]
  · rw [hconc]
    show mkRat 6 10 = (0.6 : ℚ)
    rw [Rat.mkRat_eq_div]
    norm_num
  · rw [hconc]
    show mkRat 2 10 = (0.2 : ℚ)
    rw [Rat.mkRat_eq_div]
    norm_num

/-- C6 witness: the theorem applied to the concrete ten-paper scenario. -/
theorem compare_methodologies_spec_witness :
    count_of (compare_methodologies ex10).category_counts "experimental"
        = present_count ex10 "experimental"
    ∧ (compare_methodologies ex10).methodology_diversity
        = ((present_cats ex10).card : ℚ) / (ex10.length : ℚ)
    ∧ (compare_methodologies ex10).most_common_methodology = some "experimental"
    ∧ (compare_methodologies ex10).consensus_score = (0.6 : ℚ) := by
  obtain ⟨ha, hb, _, _, he, hf, _⟩ :=
    compare_methodologies_spec ex10 (by decide) (by decide) (by decide)
  exact ⟨ha "experimental", hb, he, hf⟩

/-! ## Numerical result extraction (`ComparativeAnalysis.compare_numerical_results`)

The regex `rf'{metric}\s+(?:of|is|was|:)?\s*(\d+(?:\.\d+)?)\s*(?:%|percent)?'`
with `re.IGNORECASE` and `re.search` is embedded as a leftmost matcher over
lowercased character lists.  Greedy `\s+`/`\s*`/digit runs need no
backtracking here because everything following them can match the empty
string or starts with a non-matching character class; the word alternation
`(?:of|is|was|:)?` keeps its backtracking (an alternative is committed only
if the rest of the pattern succeeds after it). -/

/-- Kernel-computable `a / n` for a natural divisor (`mkRat` on numerator and
denominator); `q_div_nat_eq` identifies it with `/` on `ℚ`. -/
def q_div_nat (a : ℚ) (n : ℕ) : ℚ := mkRat a.num (a.den * n)

theorem q_div_nat_eq (a : ℚ) (n : ℕ) : q_div_nat a n = a / n := by
  rw [q_div_nat, Rat.mkRat_eq_div]
  push_cast
  rw [div_mul_eq_div_div, Rat.num_div_den]

/-- Kernel-computable addition on `ℚ`; `q_add_eq` identifies it with `+`. -/
def q_add (a b : ℚ) : ℚ := mkRat (a.num * b.den + b.num * a.den) (a.den * b.den)

theorem q_add_eq (a b : ℚ) : q_add a b = a + b := by
  rw [q_add, Rat.mkRat_eq_div]
  push_cast
  have h1 : ((a.den : ℚ)) ≠ 0 := Nat.cast_ne_zero.mpr a.den_nz
  have h2 : ((b.den : ℚ)) ≠ 0 := Nat.cast_ne_zero.mpr b.den_nz
  have hA : a * (a.den : ℚ) = (a.num : ℚ) := by
    nth_rewrite 1 [← Rat.num_div_den a]
    exact div_mul_cancel₀ _ h1
  have hB : b * (b.den : ℚ) = (b.num : ℚ) := by
    nth_rewrite 1 [← Rat.num_div_den b]
    exact div_mul_cancel₀ _ h2
  rw [div_eq_iff (mul_ne_zero h1 h2), ← hA, ← hB]
  ring

/-- `sum(values)` (left fold from `0`). -/
def q_sum (l : List ℚ) : ℚ := l.foldl q_add 0

/-- The metric names scanned by `compare_numerical_results`, in source order. -/
def metrics_list : List String :=
  ["accuracy", "precision", "recall", "f1", "f1 score",
   "auc", "roc", "mae", "mse", "rmse", "error rate"]

/-- The word alternatives of `(?:of|is|was|:)?`, in alternation order. -/
def alt_words : List (List Char) := ["of".toList, "is".toList, "was".toList, [':']]

/-- Match `\d+(?:\.\d+)?` at the front: returns the consumed digits (group 1)
and the rest.  The fractional part is taken greedily and only when a digit
follows the dot. -/
def match_number (cs : List Char) : Option (List Char × List Char) :=
  let digits := cs.takeWhile Char.isDigit
  if digits.isEmpty then none
  else
    let rest1 := cs.drop digits.length
    match rest1 with
    | '.' :: rest2 =>
      let frac := rest2.takeWhile Char.isDigit
      if frac.isEmpty then some (digits, rest1)
      else some (digits ++ '.' :: frac, rest2.drop frac.length)
    | _ => some (digits, rest1)

/-- Match `\s*(\d+(?:\.\d+)?)\s*(?:%|percent)?` at the front: returns the
consumed span and group 1. -/
def match_tail (cs : List Char) : Option (List Char × List Char) :=
  let ws := cs.takeWhile Char.isWhitespace
  match match_number (cs.drop ws.length) with
  | none => none
  | some (g1, rest) =>
    let ws2 := rest.takeWhile Char.isWhitespace
    let rest2 := rest.drop ws2.length
    if ['%'].isPrefixOf rest2 then some (ws ++ g1 ++ ws2 ++ ['%'], g1)
    else if ("percent".toList).isPrefixOf rest2 then
      some (ws ++ g1 ++ ws2 ++ "percent".toList, g1)
    else some (ws ++ g1 ++ ws2, g1)

/-- Try the word alternatives in order, committing to one only when the rest
of the pattern matches after it; fall through to the empty alternative. -/
def pick_alt : List (List Char) → List Char → Option (List Char × List Char)
  | [], cs => match_tail cs
  | w :: ws, cs =>
    if w.isPrefixOf cs then
      match match_tail (cs.drop w.length) with
      | some (consumed, g1) => some (w ++ consumed, g1)
      | none => pick_alt ws cs
    else pick_alt ws cs

/-- Match the whole metric pattern anchored at the front of `cs`: returns
(group 0, group 1). -/
def match_at (metric cs : List Char) : Option (List Char × List Char) :=
  if metric.isPrefixOf cs then
    let rest := cs.drop metric.length
    let ws := rest.takeWhile Char.isWhitespace
    if ws.isEmpty then none
    else
      match pick_alt alt_words (rest.drop ws.length) with
      | some (consumed, g1) => some (metric ++ ws ++ consumed, g1)
      | none => none
  else none

/-- `re.search`: leftmost position whose anchored match succeeds. -/
def search_from (metric : List Char) : List Char → Option (List Char × List Char)
  | [] => match_at metric []
  | c :: rest =>
    match match_at metric (c :: rest) with
    | some r => some r
    | none => search_from metric rest

/-- Numeric value of a matched group 1 (`float(match.group(1))`, exact). -/
def parse_decimal (g1 : List Char) : ℚ :=
  let digits := g1.takeWhile Char.isDigit
  let intval : Nat := digits.foldl (fun n c => n * 10 + (c.toNat - '0'.toNat)) 0
  match g1.drop digits.length with
  | '.' :: frac =>
    let fracval : Nat := frac.foldl (fun n c => n * 10 + (c.toNat - '0'.toNat)) 0
    mkRat (intval * 10 ^ frac.length + fracval) (10 ^ frac.length)
  | _ => mkRat intval 1

/-- Substring occurrence (`needle in haystack` on strings). -/
def contains_seq (pat : List Char) : List Char → Bool
  | [] => pat.isPrefixOf []
  | c :: cs => pat.isPrefixOf (c :: cs) || contains_seq pat cs

/-- `'%' in match.group(0) or 'percent' in match.group(0).lower()` (the span
is already lowercased by the search). -/
def has_percent_marker (g0 : List Char) : Bool :=
  g0.contains '%' || contains_seq ("percent".toList) g0

/-- Search one finding text for one metric and produce the stored value:
divide by 100 when a percent marker is present and the raw value exceeds 1. -/
def extract_metric_value (metric text : String) : Option ℚ :=
  match search_from metric.toList (text.toList.map Char.toLower) with
  | none => none
  | some (g0, g1) =>
    let raw := parse_decimal g1
    some (if has_percent_marker g0 && decide (1 < raw) then q_div_nat raw 100 else raw)

/-- One entry of `numerical_results[metric]`. -/
structure MetricEntry where
  paper_idx : Nat
  value : ℚ
  deriving DecidableEq, Repr

/-- `numerical_results[metric].append(entry)` with key creation on first
sight (insertion-ordered dict). -/
def assoc_append (results : List (String × List MetricEntry)) (metric : String)
    (entry : MetricEntry) : List (String × List MetricEntry) :=
  if results.any (fun e => e.1 == metric) then
    results.map (fun e => if e.1 == metric then (e.1, e.2 ++ [entry]) else e)
  else results ++ [(metric, [entry])]

/-- Scan one finding text against every metric name, in source order. -/
def collect_finding (pi : Nat) (text : String)
    (results : List (String × List MetricEntry)) : List (String × List MetricEntry) :=
  metrics_list.foldl (fun res metric =>
    match extract_metric_value metric text with
    | some v => assoc_append res metric ⟨pi, v⟩
    | none => res) results

/-- The `numerical_results` dict over all papers (a paper is its list of
finding texts; a paper without findings contributes nothing). -/
def numerical_results (papers : List (List String)) : List (String × List MetricEntry) :=
  papers.enum.foldl (fun res pf =>
    pf.2.foldl (fun res text => collect_finding pf.1 text res) res) []

/-- Per-metric statistics (`np.std` is external floating point and not part of
the verified aggregate; `min`, `max`, `mean`, `count` and the raw entries are). -/
structure MetricStats where
  vmin : ℚ
  vmax : ℚ
  mean : ℚ
  count : Nat
  results : List MetricEntry
  deriving DecidableEq, Repr

/-- The `metric_stats` aggregation loop (`if not values: continue`). -/
def metric_stats (results : List (String × List MetricEntry)) :
    List (String × MetricStats) :=
  results.filterMap (fun e =>
    match e.2.map (fun r => r.value) with
    | [] => none
    | v :: vs => some (e.1,
        { vmin := vs.foldl (fun a b => if b < a then b else a) v
          vmax := vs.foldl (fun a b => if a < b then b else a) v
          mean := q_div_nat (q_sum (v :: vs)) (v :: vs).length
          count := (v :: vs).length
          results := e.2 }))

/-- `ComparativeAnalysis.compare_numerical_results`: the per-metric statistics
and the `has_comparable_results` flag. -/
def compare_numerical_results (papers : List (List String)) :
    List (String × MetricStats) × Bool :=
  let stats := metric_stats (numerical_results papers)
  (stats, decide (0 < stats.length))

/-- The spec's two findings, one per paper. -/
def c5papers : List (List String) := [["accuracy of 95%"], ["accuracy is 0.90"]]

/-- C5: whenever the metric pattern matches, the stored value is the raw value
divided by 100 exactly when a percent marker (`%` or the word `percent`) is in
the matched span and the raw value exceeds 1, and the raw value unchanged
otherwise; on the two spec findings the accuracy values are `[0.95, 0.90]`
with mean `0.925` and count `2`. -/
theorem numerical_extraction_spec :
    (∀ (metric text : String) (g0 g1 : List Char),
      search_from metric.toList (text.toList.map Char.toLower) = some (g0, g1) →
      extract_metric_value metric text
        = some (if has_percent_marker g0 ∧ 1 < parse_decimal g1
            then parse_decimal g1 / 100 else parse_decimal g1))
    ∧ (compare_numerical_results c5papers).1
        = [("accuracy",
            { vmin := mkRat 9 10
              vmax := mkRat 19 20
              mean := mkRat 37 40
              count := 2
              results := [⟨0, mkRat 19 20⟩, ⟨1, mkRat 9 10⟩] })]
    ∧ (compare_numerical_results c5papers).2 = true
    ∧ mkRat 19 20 = (0.95 : ℚ) ∧ mkRat 9 10 = (0.90 : ℚ)
    ∧ mkRat 37 40 = (0.925 : ℚ) := by
  refine ⟨?_, by decide, by decide, ?_, ?_, ?_⟩
  · intro metric text g0 g1 hsearch
    simp only [extract_metric_value, hsearch]
    by_cases h1 : has_percent_marker g0 = true
    · by_cases h2 : (1 : ℚ) < parse_decimal g1
      · rw [if_pos (by simp [h1, h2]), if_pos ⟨h1, h2⟩, q_div_nat_eq]
        norm_num
      · rw [if_neg (by simp [h2]), if_neg (fun hh => h2 hh.2)]
    · rw [if_neg (by simp [h1]), if_neg (fun hh => h1 hh.1)]
  · rw [Rat.mkRat_eq_div]
    norm_num
  · rw [Rat.mkRat_eq_div]
    norm_num
  · rw [Rat.mkRat_eq_div]
    norm_num

/-- C5 witness: the normalization rule applied at the concrete match of
`accuracy` in `"accuracy of 95%"` (group 0 the whole span, group 1 `95`). -/
theorem numerical_extraction_spec_witness :
    extract_metric_value "accuracy" "accuracy of 95%"
      = some (if has_percent_marker ("accuracy of 95%".toList)
            ∧ 1 < parse_decimal ("95".toList)
          then parse_decimal ("95".toList) / 100 else parse_decimal ("95".toList)) :=
  numerical_extraction_spec.1 "accuracy" "accuracy of 95%"
    ("accuracy of 95%".toList) ("95".toList) (by decide)

/-! ## Acquisition (`AcquisitionManager.acquire_papers` and the per-source getters)

The API clients are external I/O: a source enters as a function from the
requested result budget to either an `APIError` (`Except.error ()`) or the
list of unified `Paper`s its raw records convert to.  Enrichment contacts
Semantic Scholar and is likewise a `Paper → Paper` parameter. -/

/-- The mutable state of an `AcquisitionManager` instance relevant to the
claims: the `paper_ids` set. -/
structure AcqState where
  paper_ids : Finset String

/-- The conversion loop shared by `_get_arxiv_papers` /
`_get_semantic_scholar_papers` / `_get_pubmed_papers`: skip papers whose id is
already in `self.paper_ids`, otherwise record the id and emit the paper. -/
def filter_new : Finset String → List Paper → List Paper × Finset String
  | ids, [] => ([], ids)
  | ids, p :: ps =>
    if p.id ∈ ids then filter_new ids ps
    else
      let r := filter_new (insert p.id ids) ps
      (p :: r.1, r.2)

/-- A `_get_X_papers` call: an `APIError` is caught, logged, and turned into
an empty contribution; otherwise the converted papers are filtered. -/
def get_source_papers (res : Except Unit (List Paper)) (ids : Finset String) :
    List Paper × Finset String :=
  match res with
  | Except.error _ => ([], ids)
  | Except.ok papers => filter_new ids papers

/-- `papers_per_source = max(5, self.max_papers // 3)` — the constant `3`,
independent of which sources are enabled. -/
def papers_per_source (max_papers : Nat) : Nat := max 5 (max_papers / 3)

/-- Modelled from the spec: `papersPerSource = max(5, maxPapers / numEnabledSources)`
(the formula of spec §4.2 step 1, for comparison with the code's constant). -/
def spec_budget (max_papers n : Nat) : Nat := max 5 (max_papers / n)

/-- Modelled from the spec: the number of enabled sources — arXiv and Semantic
Scholar always, PubMed when configured for a matching domain (CrossRef is
never queried by `acquire_papers`). -/
def num_enabled_sources (pubmed_enabled : Bool) : Nat :=
  if pubmed_enabled then 3 else 2

/-- The three per-source raw result lists of one `acquire_papers` call, with
`self.paper_ids` threaded through in source order, and the final state. -/
def acquire_raw (st : AcqState) (arxiv_res ss_res : Except Unit (List Paper))
    (pubmed_enabled : Bool) (pubmed_res : Except Unit (List Paper)) :
    (List Paper × List Paper × List Paper) × AcqState :=
  let a := get_source_papers arxiv_res st.paper_ids
  let s := get_source_papers ss_res a.2
  let p := if pubmed_enabled then get_source_papers pubmed_res s.2 else ([], s.2)
  ((a.1, s.1, p.1), ⟨p.2⟩)

/-- Stable insertion for the descending sort by citation count. -/
def insert_paper_desc (x : Paper) : List Paper → List Paper
  | [] => [x]
  | y :: ys => if y.citation_count < x.citation_count then x :: y :: ys
      else y :: insert_paper_desc x ys

/-- `sorted(papers, key=lambda p: p.citation_count, reverse=True)` (stable). -/
def sort_by_citation_desc (l : List Paper) : List Paper :=
  l.foldl (fun acc x => insert_paper_desc x acc) []

/-- The `all_papers` list of one `acquire_papers` call: the concatenation of
the per-source results before deduplication. -/
def acquire_all_papers (st : AcqState) (max_papers : Nat)
    (arxiv_search ss_search : Nat → Except Unit (List Paper))
    (pubmed_enabled : Bool) (pubmed_search : Nat → Except Unit (List Paper)) :
    List Paper :=
  let pps := papers_per_source max_papers
  let raw := acquire_raw st (arxiv_search pps) (ss_search pps) pubmed_enabled
    (pubmed_search pps)
  raw.1.1 ++ raw.1.2.1 ++ raw.1.2.2

/-- `AcquisitionManager.acquire_papers`: collect per-source results,
deduplicate, enrich, sort by citation count descending, truncate.  The
function is total — the body of the Python method contains no `raise`. -/
def acquire_papers (st : AcqState) (max_papers : Nat)
    (arxiv_search ss_search : Nat → Except Unit (List Paper))
    (pubmed_enabled : Bool) (pubmed_search : Nat → Except Unit (List Paper))
    (enrich : Paper → Paper) : List Paper × AcqState :=
  let pps := papers_per_source max_papers
  let raw := acquire_raw st (arxiv_search pps) (ss_search pps) pubmed_enabled
    (pubmed_search pps)
  let all_papers := raw.1.1 ++ raw.1.2.1 ++ raw.1.2.2
  let unique := deduplicate_papers all_papers
  let enriched := unique.map enrich
  let sorted := sort_by_citation_desc enriched
  (sorted.take max_papers, raw.2)

/-- C4 counterexample: with the two always-enabled sources (no PubMed) and
`maxPapers = 50`, the spec formula gives `max(5, 50/2) = 25`, but the code
computes `max(5, 50//3) = 16`. -/
theorem budget_ne_spec_budget :
    papers_per_source 50 ≠ spec_budget 50 (num_enabled_sources false) := by
  decide

/-- C4 (amended): the per-source budget is `max(5, maxPapers // 3)` — the
spec's formula only with the constant divisor `3`, regardless of how many
sources are actually enabled. -/
theorem papers_per_source_spec (mp : Nat) (pe : Bool) :
    papers_per_source mp = spec_budget mp 3
    ∧ (num_enabled_sources pe = 2 ∨ num_enabled_sources pe = 3) := by
  refine ⟨rfl, ?_⟩
  cases pe
  · exact Or.inl rfl
  · exact Or.inr rfl

/-- What a single `_get_X_papers` call guarantees: duplicate-free fresh ids,
and the id set extended by exactly the emitted ids. -/
structure SourceRun (ids : Finset String) (out : List Paper) (ids' : Finset String) : Prop where
  nodup : (out.map Paper.id).Nodup
  fresh : ∀ p ∈ out, p.id ∉ ids
  ids_eq : ids' = ids ∪ (out.map Paper.id).toFinset

theorem source_run_filter_new :
    ∀ (l : List Paper) (ids : Finset String),
      SourceRun ids (filter_new ids l).1 (filter_new ids l).2 := by
  intro l
  induction l with
  | nil =>
    intro ids
    exact ⟨List.nodup_nil, fun p hp => absurd hp (List.not_mem_nil p), by simp [filter_new]⟩
  | cons p ps ih =>
    intro ids
    by_cases hp : p.id ∈ ids
    · rw [show filter_new ids (p :: ps) = filter_new ids ps from by
        rw [filter_new, if_pos hp]]
      exact ih ids
    · have hrec := ih (insert p.id ids)
      have hout : (filter_new ids (p :: ps)).1 = p :: (filter_new (insert p.id ids) ps).1 := by
        rw [filter_new, if_neg hp]
      have hids : (filter_new ids (p :: ps)).2 = (filter_new (insert p.id ids) ps).2 := by
        rw [filter_new, if_neg hp]
      constructor
      · rw [hout, List.map_cons, List.nodup_cons]
        refine ⟨?_, hrec.nodup⟩
        intro hmem
        rcases List.mem_map.mp hmem with ⟨q, hq, hqid⟩
        exact hrec.fresh q hq (hqid ▸ Finset.mem_insert_self p.id ids)
      · intro q hq
        rw [hout] at hq
        rcases List.mem_cons.mp hq with rfl | hq
        · exact hp
        · exact fun hmem => hrec.fresh q hq (Finset.mem_insert_of_mem hmem)
      · rw [hout, hids, hrec.ids_eq, List.map_cons, List.toFinset_cons,
          Finset.insert_union, Finset.union_insert]

theorem source_run_get (res : Except Unit (List Paper)) (ids : Finset String) :
    SourceRun ids (get_source_papers res ids).1 (get_source_papers res ids).2 := by
  cases res with
  | error e =>
    exact ⟨List.nodup_nil, fun p hp => absurd hp (List.not_mem_nil p), by simp [get_source_papers]⟩
  | ok l => exact source_run_filter_new l ids

theorem source_run_skip (ids : Finset String) :
    SourceRun ids ([] : List Paper) ids :=
  ⟨List.nodup_nil, fun p hp => absurd hp (List.not_mem_nil p), by simp⟩

theorem source_run_append {ids ids1 ids2 : Finset String} {o1 o2 : List Paper}
    (h1 : SourceRun ids o1 ids1) (h2 : SourceRun ids1 o2 ids2) :
    SourceRun ids (o1 ++ o2) ids2 := by
  constructor
  · rw [List.map_append, List.nodup_append]
    refine ⟨h1.nodup, h2.nodup, ?_⟩
    intro x hx1 hx2
    rcases List.mem_map.mp hx2 with ⟨q, hq, hqid⟩
    apply h2.fresh q hq
    rw [h1.ids_eq, Finset.mem_union, hqid]
    exact Or.inr (List.mem_toFinset.mpr hx1)
  · intro q hq
    rcases List.mem_append.mp hq with hq | hq
    · exact h1.fresh q hq
    · intro hmem
      apply h2.fresh q hq
      rw [h1.ids_eq, Finset.mem_union]
      exact Or.inl hmem
  · rw [h2.ids_eq, h1.ids_eq, List.map_append, List.toFinset_append, Finset.union_assoc]

/-- The combined guarantee for the three per-source lists of one call. -/
theorem source_run_acquire_raw (st : AcqState) (a s : Except Unit (List Paper))
    (pe : Bool) (p : Except Unit (List Paper)) :
    SourceRun st.paper_ids
      ((acquire_raw st a s pe p).1.1 ++ (acquire_raw st a s pe p).1.2.1
        ++ (acquire_raw st a s pe p).1.2.2)
      (acquire_raw st a s pe p).2.paper_ids := by
  have ha := source_run_get a st.paper_ids
  have hs := source_run_get s (get_source_papers a st.paper_ids).2
  have hp : SourceRun (get_source_papers s (get_source_papers a st.paper_ids).2).2
      (if pe then get_source_papers p (get_source_papers s (get_source_papers a st.paper_ids).2).2
        else ([], (get_source_papers s (get_source_papers a st.paper_ids).2).2)).1
      (if pe then get_source_papers p (get_source_papers s (get_source_papers a st.paper_ids).2).2
        else ([], (get_source_papers s (get_source_papers a st.paper_ids).2).2)).2 := by
    cases pe
    · simpa using source_run_skip _
    · simpa using source_run_get p _
  exact source_run_append (source_run_append ha hs) hp

/-- C10: the `paper_ids` set remembers every id ever emitted: within one
`acquire_papers` call no two raw per-source papers share an id, the emitted
ids land in the instance's `paper_ids` set, and a second call on the same
instance emits no id from the first call's raw results. -/
theorem paper_ids_remembered_across_calls
    (st : AcqState) (mp1 mp2 : Nat)
    (fa1 fs1 fp1 fa2 fs2 fp2 : Nat → Except Unit (List Paper))
    (pe1 pe2 : Bool) (en1 : Paper → Paper) :
    ((acquire_all_papers st mp1 fa1 fs1 pe1 fp1).map Paper.id).Nodup
    ∧ ((acquire_all_papers st mp1 fa1 fs1 pe1 fp1).map Paper.id).toFinset
        ⊆ ((acquire_papers st mp1 fa1 fs1 pe1 fp1 en1).2).paper_ids
    ∧ ((acquire_all_papers ((acquire_papers st mp1 fa1 fs1 pe1 fp1 en1).2)
          mp2 fa2 fs2 pe2 fp2).map Paper.id).Nodup
    ∧ ((acquire_all_papers st mp1 fa1 fs1 pe1 fp1).map Paper.id).toFinset
        ∩ ((acquire_all_papers ((acquire_papers st mp1 fa1 fs1 pe1 fp1 en1).2)
            mp2 fa2 fs2 pe2 fp2).map Paper.id).toFinset = ∅ := by
  have h1 := source_run_acquire_raw st (fa1 (papers_per_source mp1))
    (fs1 (papers_per_source mp1)) pe1 (fp1 (papers_per_source mp1))
  have h2 := source_run_acquire_raw ((acquire_papers st mp1 fa1 fs1 pe1 fp1 en1).2)
    (fa2 (papers_per_source mp2)) (fs2 (papers_per_source mp2)) pe2
    (fp2 (papers_per_source mp2))
  have hsub : ((acquire_all_papers st mp1 fa1 fs1 pe1 fp1).map Paper.id).toFinset
      ⊆ ((acquire_papers st mp1 fa1 fs1 pe1 fp1 en1).2).paper_ids := by
    rw [show ((acquire_papers st mp1 fa1 fs1 pe1 fp1 en1).2).paper_ids
        = st.paper_ids
          ∪ ((acquire_all_papers st mp1 fa1 fs1 pe1 fp1).map Paper.id).toFinset
      from h1.ids_eq]
    exact Finset.subset_union_right
  refine ⟨h1.nodup, hsub, h2.nodup, ?_⟩
  rw [Finset.eq_empty_iff_forall_not_mem]
  intro x hx
  rw [Finset.mem_inter] at hx
  rcases List.mem_map.mp (List.mem_toFinset.mp hx.2) with ⟨q, hq, hqid⟩
  exact h2.fresh q hq (hqid ▸ hsub hx.1)

theorem length_insert_paper_desc (x : Paper) :
    ∀ (l : List Paper), (insert_paper_desc x l).length = l.length + 1 := by
  intro l
  induction l with
  | nil => rfl
  | cons y ys ih =>
    rw [insert_paper_desc]
    by_cases h : y.citation_count < x.citation_count
    · rw [if_pos h]
      rfl
    · rw [if_neg h, List.length_cons, ih, List.length_cons]

theorem length_sort_by_citation_desc (l : List Paper) :
    (sort_by_citation_desc l).length = l.length := by
  suffices h : ∀ (l acc : List Paper),
      (l.foldl (fun acc x => insert_paper_desc x acc) acc).length
        = acc.length + l.length by
    rw [sort_by_citation_desc, h l []]
    simp
  intro l
  induction l with
  | nil => intro acc; rfl
  | cons x xs ih =>
    intro acc
    rw [List.foldl_cons, ih, length_insert_paper_desc, List.length_cons]
    omega

theorem dedup_step_survivors_length (st : DedupState) (p : Paper) :
    st.survivors.length ≤ (dedup_step st p).survivors.length := by
  have hmerge : ∀ i, (dedup_merge_at st i p).survivors.length = st.survivors.length :=
    fun i => length_list_modify _ i st.survivors
  have hreg : (dedup_register st p).survivors.length = st.survivors.length + 1 := by
    show (st.survivors ++ [p]).length = st.survivors.length + 1
    simp
  have htitle : st.survivors.length ≤ (dedup_title_branch st p).survivors.length := by
    rcases hl : lookup_assoc st.by_title (normalize_title p.title) with _ | i
    · simp only [dedup_title_branch, hl, hreg]
      omega
    · simp only [dedup_title_branch, hl, hmerge i]
      exact Nat.le_refl _
  rcases hk : doi_key p with _ | k
  · simpa only [dedup_step, hk] using htitle
  · rcases hb : lookup_assoc st.by_doi k with _ | i
    · simpa only [dedup_step, hk, hb] using htitle
    · simp only [dedup_step, hk, hb, hmerge i]
      exact Nat.le_refl _

theorem dedup_fold_survivors_length :
    ∀ (l : List Paper) (st : DedupState),
      st.survivors.length ≤ (l.foldl dedup_step st).survivors.length := by
  intro l
  induction l with
  | nil => intro st; exact Nat.le_refl _
  | cons p ps ih =>
    intro st
    rw [List.foldl_cons]
    exact Nat.le_trans (dedup_step_survivors_length st p) (ih (dedup_step st p))

theorem dedup_first_step_from_empty (p : Paper) :
    (dedup_step ⟨[], [], []⟩ p).survivors = [p] := by
  have hreg : (dedup_register ⟨[], [], []⟩ p).survivors = [p] := rfl
  have htitle : (dedup_title_branch ⟨[], [], []⟩ p).survivors = [p] := by
    simp only [dedup_title_branch, lookup_assoc, List.find?_nil, Option.map_none', hreg]
  rcases hk : doi_key p with _ | k
  · simpa only [dedup_step, hk] using htitle
  · simp only [dedup_step, hk, lookup_assoc, List.find?_nil, Option.map_none']
    exact htitle

theorem dedup_length_pos {papers : List Paper} (h : papers ≠ []) :
    0 < (deduplicate_papers papers).length := by
  rcases papers with _ | ⟨p, rest⟩
  · exact absurd rfl h
  · rw [deduplicate_papers, List.foldl_cons]
    have h1 : 1 ≤ (dedup_step ⟨[], [], []⟩ p).survivors.length := by
      rw [dedup_first_step_from_empty]
      exact Nat.le_refl _
    exact Nat.lt_of_lt_of_le h1 (dedup_fold_survivors_length rest _)

/-- C3 counterexample: when every enabled source raises an `APIError`
(contributing zero papers), `acquire_papers` does not fail — it returns the
normal value `[]`.  There is no `raise` in the method at all, so the claimed
failure when every source produces zero papers never happens. -/
theorem acquire_all_failed_returns_empty :
    (acquire_papers ⟨∅⟩ 50 (fun _ => Except.error ()) (fun _ => Except.error ())
        false (fun _ => Except.error ()) id).1 = [] := by
  rfl

/-- C3 (amended): a failing source contributes exactly the empty list (the
call is indistinguishable from the source returning no papers), and
`acquire_papers` never raises: it returns normally in every case, with an
empty list exactly when every enabled source produced zero papers before
deduplication (for a positive `max_papers`). -/
theorem acquire_failure_semantics
    (st : AcqState) (mp : Nat) (hmp : 0 < mp)
    (fs fp : Nat → Except Unit (List Paper)) (pe : Bool) (en : Paper → Paper) :
    (acquire_papers st mp (fun _ => Except.error ()) fs pe fp en
      = acquire_papers st mp (fun _ => Except.ok []) fs pe fp en)
    ∧ ∀ fa : Nat → Except Unit (List Paper),
      ((acquire_papers st mp fa fs pe fp en).1 = []
        ↔ acquire_all_papers st mp fa fs pe fp = []) := by
  constructor
  · rfl
  · intro fa
    have hres : (acquire_papers st mp fa fs pe fp en).1
        = (sort_by_citation_desc
            ((deduplicate_papers (acquire_all_papers st mp fa fs pe fp)).map en)).take mp :=
      rfl
    rw [hres]
    constructor
    · intro h
      by_contra hne
      have hd : 0 < (deduplicate_papers (acquire_all_papers st mp fa fs pe fp)).length :=
        dedup_length_pos hne
      have hlen : 0 < ((sort_by_citation_desc
          ((deduplicate_papers (acquire_all_papers st mp fa fs pe fp)).map en)).take
            mp).length := by
        rw [List.length_take, length_sort_by_citation_desc, List.length_map]
        omega
      rw [h] at hlen
      exact absurd hlen (by simp)
    · intro h
      rw [h]
      simp [deduplicate_papers, sort_by_citation_desc]

/-- C3 witness: the amended semantics at a concrete call — one failing source
beside one source returning a paper still yields that paper's result. -/
theorem acquire_failure_semantics_witness :
    (acquire_papers ⟨∅⟩ 50 (fun _ => Except.error ())
        (fun _ => Except.ok [nodupPaper]) false (fun _ => Except.error ()) id
      = acquire_papers ⟨∅⟩ 50 (fun _ => Except.ok [])
        (fun _ => Except.ok [nodupPaper]) false (fun _ => Except.error ()) id)
    ∧ ((acquire_papers ⟨∅⟩ 50 (fun _ => Except.error ())
          (fun _ => Except.ok [nodupPaper]) false (fun _ => Except.error ()) id).1 = []
        ↔ acquire_all_papers ⟨∅⟩ 50 (fun _ => Except.error ())
            (fun _ => Except.ok [nodupPaper]) false (fun _ => Except.error ()) = []) := by
  obtain ⟨h1, h2⟩ := acquire_failure_semantics ⟨∅⟩ 50 (by decide)
    (fun _ => Except.ok [nodupPaper]) (fun _ => Except.error ()) false id
  exact ⟨h1, h2 (fun _ => Except.error ())⟩

/-! ## Pipeline query recovery (`ResearchPipeline.process_query` / `resume_research`)

`process_query` records `description = f"Received research query: {query}"`
under type `'query_received'`; `resume_research` finds the first such entry
and recovers the query with
`entry.description.replace("Received research query: ", "")` — Python's
`str.replace`, which removes *every* occurrence of the marker, left to right,
non-overlapping.  The recovered query is passed back into `process_query`
(stage 1). -/

/-- Python `str.replace(pat, '')` on character lists, with a structural fuel
argument so that it evaluates in the kernel; `py_replace` supplies fuel
`s.length`, which the lemmas show is enough. -/
def py_replace_fuel (pat : List Char) : Nat → List Char → List Char
  | 0, s => s
  | _ + 1, [] => []
  | fuel + 1, c :: cs =>
    if pat.isPrefixOf (c :: cs) then py_replace_fuel pat fuel ((c :: cs).drop pat.length)
    else c :: py_replace_fuel pat fuel cs

/-- `s.replace(pat, "")` (all occurrences, leftmost, non-overlapping). -/
def py_replace (pat s : List Char) : List Char :=
  py_replace_fuel pat s.length s

/-- The literal marker `"Received research query: "`. -/
def query_marker : List Char := "Received research query: ".toList

/-- A changelog entry (`ChangelogEntry`), restricted to the fields the
recovery logic reads. -/
structure ChangelogEntry where
  entry_type : String
  description : String
  deriving DecidableEq, Repr

/-- The entry `process_query` appends on receiving query `q`. -/
def mk_query_received_entry (q : String) : ChangelogEntry :=
  ⟨"query_received", String.mk (query_marker ++ q.toList)⟩

/-- `query_entry.description.replace("Received research query: ", "")`. -/
def recover_query (e : ChangelogEntry) : String :=
  String.mk (py_replace query_marker e.description.toList)

/-- `ResearchPipeline.resume_research`, up to the recovered query that is
passed back into `process_query` (stage 1): error when the changelog is empty
or lacks a `query_received` entry, else the recovered query text. -/
def resume_research (entries : List ChangelogEntry) : Except String String :=
  if entries.isEmpty then Except.error "project not found"
  else
    match entries.find? (fun e => e.entry_type == "query_received") with
    | none => Except.error "original query not found"
    | some e => Except.ok (recover_query e)

instance exceptDecEq {ε α : Type} [DecidableEq ε] [DecidableEq α] :
    DecidableEq (Except ε α) := fun x y =>
  match x, y with
  | Except.ok a, Except.ok b =>
    if h : a = b then isTrue (h ▸ rfl) else isFalse (fun hc => h (Except.ok.inj hc))
  | Except.error a, Except.error b =>
    if h : a = b then isTrue (h ▸ rfl) else isFalse (fun hc => h (Except.error.inj hc))
  | Except.ok _, Except.error _ => isFalse (fun hc => Except.noConfusion hc)
  | Except.error _, Except.ok _ => isFalse (fun hc => Except.noConfusion hc)

/-- C9 counterexample: a query that itself contains the marker text does not
round-trip — `str.replace` strips the marker everywhere, so the query
`"Received research query: x"` is recovered as `"x"`. -/
theorem resume_not_roundtrip :
    resume_research [mk_query_received_entry "Received research query: x"]
        = Except.ok "x"
    ∧ resume_research [mk_query_received_entry "Received research query: x"]
        ≠ Except.ok "Received research query: x" := by
  decide

theorem py_replace_fuel_no_occurrence (pat : List Char) :
    ∀ (fuel : Nat) (s : List Char), s.length ≤ fuel → contains_seq pat s = false →
      py_replace_fuel pat fuel s = s := by
  intro fuel
  induction fuel with
  | zero => intro s _ _; rfl
  | succ fuel ih =>
    intro s hlen hocc
    cases s with
    | nil => rfl
    | cons c cs =>
      rw [contains_seq, Bool.or_eq_false_iff] at hocc
      rw [py_replace_fuel, if_neg (by simp [hocc.1]),
        ih cs (by simpa using Nat.le_of_succ_le_succ hlen) hocc.2]

theorem py_replace_strip_marker {pat q : List Char} (hpat : pat ≠ [])
    (hq : contains_seq pat q = false) : py_replace pat (pat ++ q) = q := by
  rcases pat with _ | ⟨p, ps⟩
  · exact absurd rfl hpat
  · rw [py_replace]
    have hlen : ((p :: ps) ++ q).length = (ps.length + q.length) + 1 := by
      simp only [List.length_append, List.length_cons]
      omega
    rw [hlen]
    rw [show ((p :: ps) ++ q) = p :: (ps ++ q) from rfl, py_replace_fuel,
      if_pos (by
        rw [List.isPrefixOf_iff_prefix]
        exact List.prefix_append (p :: ps) q)]
    rw [show (p :: (ps ++ q)).drop (p :: ps).length = (ps ++ q).drop ps.length from rfl,
      List.drop_left]
    exact py_replace_fuel_no_occurrence (p :: ps) _ q (by omega) hq

/-- C9 (amended): for every query `q` that does not itself contain the marker
text `"Received research query: "`, resuming a project whose changelog's first
`query_received` entry was recorded from `q` recovers exactly `q` and hands it
back to stage 1.  (A query containing the marker is mangled, see
`resume_not_roundtrip`.) -/
theorem resume_roundtrip (entries : List ChangelogEntry) (q : String)
    (hne : entries ≠ [])
    (hfind : entries.find? (fun e => e.entry_type == "query_received")
      = some (mk_query_received_entry q))
    (hq : contains_seq query_marker q.toList = false) :
    resume_research entries = Except.ok q := by
  have hne' : entries.isEmpty = false := by
    cases entries
    · exact absurd rfl hne
    · rfl
  rw [resume_research, hne']
  simp only [Bool.false_eq_true, if_false, hfind]
  congr 1
  rw [recover_query, mk_query_received_entry]
  rw [show (String.mk (query_marker ++ q.toList)).toList = query_marker ++ q.toList from rfl]
  rw [py_replace_strip_marker (by decide) hq]
  cases q
  rfl

/-- C9 witness: the round trip at the concrete query `"transformer models"`. -/
theorem resume_roundtrip_witness :
    resume_research [mk_query_received_entry "transformer models"]
      = Except.ok "transformer models" :=
  resume_roundtrip [mk_query_received_entry "transformer models"]
    "transformer models" (by decide) (by decide) (by decide)

end ARA
